import Mathlib

/-!
Verification of the streaming response processor of `cyberlama.py`.

We shallowly embed the incremental stream processor of `stream_completion`
(raw fallback path, lines 356-427), the post-hoc regex extraction used by the
rich-renderer path (lines 346-350), the line highlighter
(`highlight_code_line` / `highlight_code_text`, lines 255-281), and the
`:copy` / `:diff` command handlers (lines 435-474 and 521-540).

Strings are modelled as `List Char`.  Python `str.split`, the regex scans and
the line loop are translated operation by operation; see the doc comment on
each definition for the corresponding source lines.
-/

namespace CyberLama

/-- The backtick character, written by code point to keep sources readable. -/
def btick : Char := Char.ofNat 96

/-- The newline character. -/
def nl : Char := '\n'

/-- The escape character 0x1B that starts every ANSI color sequence. -/
def escC : Char := Char.ofNat 27

/-- The hash character used for comment detection in `highlight_code_line`. -/
def hashC : Char := Char.ofNat 35

/-- The double-quote character. -/
def dquote : Char := Char.ofNat 34

/-- The single-quote character. -/
def squote : Char := Char.ofNat 39

/-- ANSI code `RESET = "\x1b[0m"` (source line 53). -/
def RESET : List Char := [escC, '[', '0', 'm']

/-- ANSI code `YELLOW = "\x1b[33m"` (source line 54). -/
def YELLOW : List Char := [escC, '[', '3', '3', 'm']

/-- ANSI code `BLUE = "\x1b[34m"` (source line 55). -/
def BLUE : List Char := [escC, '[', '3', '4', 'm']

/-- ANSI code `CYAN = "\x1b[36m"` (source line 55). -/
def CYAN : List Char := [escC, '[', '3', '6', 'm']

/-- ANSI code `GRAY = "\x1b[90m"` (source line 55). -/
def GRAY : List Char := [escC, '[', '9', '0', 'm']

/-- Splits a list at the first occurrence of a character: `some (before, after)`
with the occurrence itself removed, or `none` when absent.  This is the shape
of Python `s.split(ch, 1)` when it finds a separator. -/
def splitAtFirst (q : Char) : List Char → Option (List Char × List Char)
  | [] => none
  | c :: r =>
    if c = q then some ([], r)
    else (splitAtFirst q r).map (fun p => (c :: p.1, p.2))

/-- Finds the first occurrence of the three-character fence marker inside a
list of characters, returning the part before it and the part after it.  This
is the scan underlying Python `delta.split` on the fence marker (source
line 373) and the closing-fence search of the rich-path regex. -/
def breakMarker : List Char → Option (List Char × List Char)
  | c1 :: c2 :: c3 :: r =>
    if c1 = btick ∧ c2 = btick ∧ c3 = btick then some ([], r)
    else (breakMarker (c2 :: c3 :: r)).map (fun p => (c1 :: p.1, p.2))
  | _ => none

/-- Python `delta.split` on the three-backtick fence marker (source
line 373): splits a delta at every occurrence of the marker, scanning left to
right with non-overlapping matches. -/
def splitOnMarker : List Char → List (List Char)
  | c1 :: c2 :: c3 :: r =>
    if c1 = btick ∧ c2 = btick ∧ c3 = btick then [] :: splitOnMarker r
    else
      match splitOnMarker (c2 :: c3 :: r) with
      | [] => [[c1]]
      | h :: t => (c1 :: h) :: t
  | cs => [cs]

/-- Splits a character buffer into its complete newline-terminated lines (each
returned with its newline restored, in order) and the trailing remainder that
carries no newline.  This realises the `while "\n" in buffer` loop of source
lines 400-403, which repeatedly peels `buffer.split("\n", 1)` and appends
`line_content + "\n"`. -/
def splitLines : List Char → List (List Char) × List Char
  | [] => ([], [])
  | c :: r =>
    if c = nl then ([[nl]] ++ (splitLines r).1, (splitLines r).2)
    else
      match splitLines r with
      | ([], rest) => ([], c :: rest)
      | (l :: ls, rest) => ((c :: l) :: ls, rest)

/-- State of the raw-path incremental scanner of `stream_completion`:
`inCode` is `in_code_block` (line 356), `buffer` the partial-line buffer
(line 357), `cur` is `current_block_content` (line 318), `blocks` is the
global `CODE_BLOCKS` list (line 317), and `full` is `full_content`
(line 313). -/
structure St where
  inCode : Bool
  buffer : List Char
  cur : List (List Char)
  blocks : List (List Char)
  full : List Char
deriving Repr, DecidableEq

/-- Initial scanner state at the start of a `stream_completion` call
(lines 313-318, after the `CODE_BLOCKS = []` reset). -/
def initSt : St := { inCode := false, buffer := [], cur := [], blocks := [], full := [] }

/-- The drain loop of lines 400-403 applied to a buffer: every complete line
moves (newline restored) to the end of `current_block_content`; the remainder
stays in the buffer. -/
def drainBuf (b : List Char) (cur : List (List Char)) : List Char × List (List Char) :=
  ((splitLines b).2, cur ++ (splitLines b).1)

/-- The toggle executed for every part index `i > 0` of the split delta
(source lines 376-394): closing a block flushes the buffer, commits the
joined `current_block_content` to `CODE_BLOCKS` and leaves code state;
opening a block just enters code state. -/
def toggleFence (s : St) : St :=
  if s.inCode then
    let cur' := if s.buffer ≠ [] then s.cur ++ [s.buffer] else s.cur
    { s with
      inCode := false
      buffer := []
      cur := []
      blocks := s.blocks ++ [cur'.flatten] }
  else
    { s with inCode := true }

/-- Processing of one `part` of the split delta (source lines 396-405):
empty parts are skipped, in code state the part is buffered and complete
lines are drained, in text state the part is only printed. -/
def procPart (s : St) (p : List Char) : St :=
  if p = [] then s
  else if s.inCode then
    let d := drainBuf (s.buffer ++ p) s.cur
    { s with buffer := d.1, cur := d.2 }
  else s

/-- Processing of all parts after the first: each is preceded by a fence
toggle (the `if i > 0` of source line 376). -/
def procRest (s : St) : List (List Char) → St
  | [] => s
  | p :: ps => procRest (procPart (toggleFence s) p) ps

/-- Processing of the full part list of one delta: the first part gets no
toggle, every later part does. -/
def procParts (s : St) : List (List Char) → St
  | [] => s
  | p :: ps => procRest (procPart s p) ps

/-- Processing of one content delta in the raw path (source lines 372-405):
accumulate it into `full_content`, split it on the fence marker and process
the parts. -/
def procDelta (s : St) (d : List Char) : St :=
  procParts { s with full := s.full ++ d } (splitOnMarker d)

/-- The flush after the line loop (source lines 415-419): only when the
partial-line buffer is non-empty and we are still inside a code block is the
accumulated content committed as a final block. -/
def finishSt (s : St) : St :=
  if s.buffer ≠ [] ∧ s.inCode then
    { s with
      cur := s.cur ++ [s.buffer]
      blocks := s.blocks ++ [(s.cur ++ [s.buffer]).flatten] }
  else s

/-- Folding the raw-path scanner over a sequence of content deltas. -/
def procFold (s : St) (deltas : List (List Char)) : St :=
  List.foldl procDelta s deltas

/-- Running the raw-path scanner over a whole delta sequence including the
end-of-stream flush. -/
def procStream (deltas : List (List Char)) : St :=
  finishSt (procFold initSt deltas)

/-! Characteristic lemmas for the splitting primitives. -/

theorem splitAtFirst_eq {q : Char} :
    ∀ {cs b r : List Char}, splitAtFirst q cs = some (b, r) → cs = b ++ q :: r := by
  intro cs
  induction cs with
  | nil => intro b r h; simp [splitAtFirst] at h
  | cons c t ih =>
    intro b r h
    by_cases hc : c = q
    · rw [splitAtFirst, if_pos hc] at h
      obtain ⟨h1, h2⟩ := Prod.mk.injEq .. ▸ Option.some.inj h
      subst hc; rw [← h1, ← h2]; rfl
    · rw [splitAtFirst, if_neg hc] at h
      rcases hsp : splitAtFirst q t with _ | ⟨b', r'⟩ <;> rw [hsp] at h
      · simp at h
      · obtain ⟨h1, h2⟩ := Prod.mk.injEq .. ▸ Option.some.inj h
        rw [← h1, ← h2]
        simpa using ih hsp

theorem splitAtFirst_not_mem {q : Char} {cs b r : List Char}
    (h : splitAtFirst q cs = some (b, r)) : q ∉ b := by
  induction cs generalizing b r with
  | nil => simp [splitAtFirst] at h
  | cons c t ih =>
    by_cases hc : c = q
    · rw [splitAtFirst, if_pos hc] at h
      obtain ⟨h1, _⟩ := Prod.mk.injEq .. ▸ Option.some.inj h
      rw [← h1]; simp
    · rw [splitAtFirst, if_neg hc] at h
      rcases hsp : splitAtFirst q t with _ | ⟨b', r'⟩ <;> rw [hsp] at h
      · simp at h
      · obtain ⟨h1, _⟩ := Prod.mk.injEq .. ▸ Option.some.inj h
        rw [← h1]
        intro hm
        rcases List.mem_cons.mp hm with h' | h'
        · exact hc h'.symm
        · exact ih hsp h'

theorem splitAtFirst_none {q : Char} :
    ∀ {cs : List Char}, splitAtFirst q cs = none → q ∉ cs := by
  intro cs
  induction cs with
  | nil => intro _; simp
  | cons c t ih =>
    intro h
    by_cases hc : c = q
    · rw [splitAtFirst, if_pos hc] at h; simp at h
    · rw [splitAtFirst, if_neg hc] at h
      rcases hsp : splitAtFirst q t with _ | p <;> rw [hsp] at h
      · simp [ih hsp]
        exact fun h' => hc h'.symm
      · simp at h

theorem splitAtFirst_of_not_mem {q : Char} :
    ∀ {cs : List Char}, q ∉ cs → splitAtFirst q cs = none := by
  intro cs
  induction cs with
  | nil => intro _; rfl
  | cons c t ih =>
    intro h
    have hc : c ≠ q := fun hq => h (hq ▸ List.mem_cons_self c t)
    have ht : q ∉ t := fun hq => h (List.mem_cons_of_mem c hq)
    rw [splitAtFirst, if_neg hc, ih ht]
    rfl

theorem breakMarker_eq :
    ∀ {cs b r : List Char}, breakMarker cs = some (b, r) →
      cs = b ++ btick :: btick :: btick :: r := by
  intro cs
  induction cs using breakMarker.induct with
  | case1 c1 c2 c3 r hm =>
    intro b r' h
    rw [breakMarker, if_pos hm] at h
    obtain ⟨h1, h2⟩ := Prod.mk.injEq .. ▸ Option.some.inj h
    rw [← h1, ← h2, hm.1, hm.2.1, hm.2.2]
    rfl
  | case2 c1 c2 c3 r hm ih =>
    intro b r' h
    rw [breakMarker, if_neg hm] at h
    rcases hbm : breakMarker (c2 :: c3 :: r) with _ | ⟨b', r''⟩ <;> rw [hbm] at h
    · simp at h
    · obtain ⟨h1, h2⟩ := Prod.mk.injEq .. ▸ Option.some.inj h
      rw [← h1, ← h2]
      simpa using ih hbm
  | case3 cs hno =>
    intro b r h
    rcases cs with _ | ⟨a, _ | ⟨b2, _ | ⟨c2, r2⟩⟩⟩
    · simp [breakMarker] at h
    · simp [breakMarker] at h
    · simp [breakMarker] at h
    · exact absurd rfl (hno a b2 c2 r2)

/-- `splitOnMarker` unfolds through `breakMarker`: the first marker occurrence
produces the first part, the rest is split recursively. -/
theorem splitOnMarker_break :
    ∀ cs : List Char, splitOnMarker cs =
      match breakMarker cs with
      | none => [cs]
      | some (b, r) => b :: splitOnMarker r := by
  intro cs
  induction cs using splitOnMarker.induct with
  | case1 c1 c2 c3 r hm _ =>
    rw [splitOnMarker, if_pos hm, breakMarker, if_pos hm]
  | case2 c1 c2 c3 r hm hsp ih =>
    exact absurd (hsp ▸ ih) (by rcases hbm : breakMarker (c2 :: c3 :: r) with _ | p <;> simp)
  | case3 c1 c2 c3 r hm h t hsp ih =>
    rw [splitOnMarker, if_neg hm, hsp, breakMarker, if_neg hm]
    rw [hsp] at ih
    rcases hbm : breakMarker (c2 :: c3 :: r) with _ | ⟨b', r'⟩ <;> rw [hbm] at ih
    · simp at ih
      rw [ih.1, ih.2]
      rfl
    · simp at ih
      rw [ih.1, ih.2]
      rfl
  | case4 cs hno =>
    rcases cs with _ | ⟨a, _ | ⟨b2, _ | ⟨c2, r2⟩⟩⟩
    · simp [breakMarker, splitOnMarker]
    · simp [breakMarker, splitOnMarker]
    · simp [breakMarker, splitOnMarker]
    · exact absurd rfl (hno a b2 c2 r2)

theorem splitOnMarker_ne_nil (cs : List Char) : splitOnMarker cs ≠ [] := by
  rw [splitOnMarker_break]
  rcases breakMarker cs with _ | ⟨b, r⟩ <;> simp

/-! Append lemmas: how the marker scan behaves on a concatenation, provided
no backtick run straddles the boundary (the left part must not end in a
backtick). -/

theorem breakMarker_append_some {a p r : List Char} (b : List Char)
    (h : breakMarker a = some (p, r)) :
    breakMarker (a ++ b) = some (p, r ++ b) := by
  induction a using breakMarker.induct generalizing p r with
  | case1 c1 c2 c3 t hm =>
    rw [breakMarker, if_pos hm] at h
    obtain ⟨h1, h2⟩ := Prod.mk.injEq .. ▸ Option.some.inj h
    rw [show (c1 :: c2 :: c3 :: t) ++ b = c1 :: c2 :: c3 :: (t ++ b) from rfl,
      breakMarker, if_pos hm, ← h1, ← h2]
  | case2 c1 c2 c3 t hm ih =>
    rw [breakMarker, if_neg hm] at h
    rcases hbm : breakMarker (c2 :: c3 :: t) with _ | ⟨p', r'⟩ <;> rw [hbm] at h
    · simp at h
    · obtain ⟨h1, h2⟩ := Prod.mk.injEq .. ▸ Option.some.inj h
      rw [show (c1 :: c2 :: c3 :: t) ++ b = c1 :: c2 :: c3 :: (t ++ b) from rfl,
        breakMarker, if_neg hm,
        show c2 :: c3 :: (t ++ b) = (c2 :: c3 :: t) ++ b from rfl, ih hbm]
      rw [← h1, ← h2]
      rfl
  | case3 t hno =>
    rcases t with _ | ⟨x, _ | ⟨y, _ | ⟨z, t'⟩⟩⟩
    · simp [breakMarker] at h
    · simp [breakMarker] at h
    · simp [breakMarker] at h
    · exact absurd rfl (hno x y z t')

theorem breakMarker_append_none {a : List Char} (b : List Char)
    (h : breakMarker a = none) (hl : a.getLast? ≠ some btick) :
    breakMarker (a ++ b) = (breakMarker b).map (fun p => (a ++ p.1, p.2)) := by
  induction a with
  | nil =>
    rcases hbm : breakMarker b with _ | ⟨p, r⟩ <;> simp [hbm]
  | cons c a' ih =>
    rcases a' with _ | ⟨d, a''⟩
    · have hc : c ≠ btick := by
        intro hcq
        exact hl (by rw [hcq]; rfl)
      rcases b with _ | ⟨x, _ | ⟨y, br⟩⟩
      · simp [breakMarker]
      · simp [breakMarker]
      · rw [show [c] ++ x :: y :: br = c :: x :: y :: br from rfl, breakMarker,
          if_neg (by intro hc3; exact hc hc3.1)]
        rcases hbm : breakMarker (x :: y :: br) with _ | ⟨p, r⟩ <;> simp [hbm]
    · rcases a'' with _ | ⟨e, a3⟩
      · have hd : d ≠ btick := by
          intro hdq
          exact hl (by rw [hdq]; rfl)
        have hb2 : breakMarker (d :: b) = (breakMarker b).map (fun p => (d :: p.1, p.2)) := by
          rcases b with _ | ⟨x, _ | ⟨y, br⟩⟩
          · simp [breakMarker]
          · simp [breakMarker]
          · rw [breakMarker, if_neg (by intro hc3; exact hd hc3.1)]
        rcases b with _ | ⟨x, br⟩
        · simp [breakMarker]
        · rw [show [c, d] ++ x :: br = c :: d :: x :: br from rfl, breakMarker,
            if_neg (by intro hc3; exact hd hc3.2.1),
            show d :: x :: br = d :: (x :: br) from rfl, hb2]
          rcases hbm : breakMarker (x :: br) with _ | ⟨p, r⟩ <;> simp [hbm]
      · have hl' : (d :: e :: a3).getLast? ≠ some btick := by
          intro hq
          exact hl (by rw [List.getLast?_cons_cons]; exact hq)
        by_cases hm : c = btick ∧ d = btick ∧ e = btick
        · rw [breakMarker, if_pos hm] at h
          simp at h
        · rw [breakMarker, if_neg hm] at h
          have hnone : breakMarker (d :: e :: a3) = none := by
            rcases hbm : breakMarker (d :: e :: a3) with _ | p
            · rfl
            · rw [hbm] at h; simp at h
          rw [show (c :: d :: e :: a3) ++ b = c :: ((d :: e :: a3) ++ b) from rfl]
          rw [show c :: ((d :: e :: a3) ++ b) = c :: d :: e :: (a3 ++ b) from rfl,
            breakMarker, if_neg hm,
            show d :: e :: (a3 ++ b) = (d :: e :: a3) ++ b from rfl,
            ih hnone hl']
          rcases hbm : breakMarker b with _ | ⟨p, r⟩ <;> simp [hbm]

/-- Merging two part lists of adjacent deltas: all parts survive except that
the last part of the first delta and the first part of the second are fused
(no fence toggle separates them). -/
def glue (xs ys : List (List Char)) : List (List Char) :=
  xs.dropLast ++ (xs.getLastD [] ++ ys.headD []) :: ys.tail

theorem getLastD_irrel {α : Type} (l : List α) (h : l ≠ []) (d d' : α) :
    l.getLastD d = l.getLastD d' := by
  rw [List.getLastD_eq_getLast?, List.getLastD_eq_getLast?,
    List.getLast?_eq_getLast l h]
  rfl

theorem splitOnMarker_append {a : List Char} (b : List Char)
    (hl : a.getLast? ≠ some btick) :
    splitOnMarker (a ++ b) = glue (splitOnMarker a) (splitOnMarker b) := by
  suffices h : ∀ (n : Nat) (a b : List Char), a.length ≤ n → a.getLast? ≠ some btick →
      splitOnMarker (a ++ b) = glue (splitOnMarker a) (splitOnMarker b) from
    h a.length a b le_rfl hl
  intro n
  induction n with
  | zero =>
    intro a b ha _
    have hanil : a = [] := List.eq_nil_of_length_eq_zero (Nat.le_zero.mp ha)
    subst hanil
    rcases hys : splitOnMarker b with _ | ⟨y0, ys'⟩
    · exact absurd hys (splitOnMarker_ne_nil b)
    · rw [List.nil_append, hys]
      rfl
  | succ n ih =>
    intro a b ha hl
    rcases hbm : breakMarker a with _ | ⟨p, r⟩
    · have hsa : splitOnMarker a = [a] := by rw [splitOnMarker_break a, hbm]
      have hL : splitOnMarker (a ++ b) =
          match breakMarker b with
          | none => [a ++ b]
          | some (p, r) => (a ++ p) :: splitOnMarker r := by
        rw [splitOnMarker_break (a ++ b), breakMarker_append_none b hbm hl]
        rcases breakMarker b with _ | ⟨p, r⟩ <;> rfl
      rcases hbb : breakMarker b with _ | ⟨p, r⟩
      · have hsb : splitOnMarker b = [b] := by rw [splitOnMarker_break b, hbb]
        rw [hL, hbb, hsa, hsb]
        rfl
      · have hsb : splitOnMarker b = p :: splitOnMarker r := by
          rw [splitOnMarker_break b, hbb]
        rw [hL, hbb, hsa, hsb]
        rfl
    · have hdec := breakMarker_eq hbm
      have hr : r.length ≤ n := by
        have := congrArg List.length hdec
        simp at this
        omega
      have hlr : r.getLast? ≠ some btick := by
        rcases hrn : r with _ | ⟨x, r'⟩
        · simp
        · rw [hrn] at hdec
          rw [← List.getLast?_append_of_ne_nil (p ++ [btick, btick, btick])
            (by simp : x :: r' ≠ [])]
          rw [show p ++ [btick, btick, btick] ++ x :: r'
              = p ++ btick :: btick :: btick :: x :: r' by simp]
          rw [← hdec]
          exact hl
      have hsa : splitOnMarker a = p :: splitOnMarker r := by
        rw [splitOnMarker_break a, hbm]
      have hL : splitOnMarker (a ++ b) = p :: splitOnMarker (r ++ b) := by
        rw [splitOnMarker_break (a ++ b), breakMarker_append_some b hbm]
      rw [hL, hsa, ih r b hr hlr]
      rcases hsr : splitOnMarker r with _ | ⟨l0, l'⟩
      · exact absurd hsr (splitOnMarker_ne_nil r)
      · rcases l' with _ | ⟨l1, l''⟩
        · simp [glue, List.getLastD_cons, List.dropLast_cons₂]
        · simp [glue, List.getLastD_cons, List.dropLast_cons₂]

theorem splitLines_cons_nl (r : List Char) :
    splitLines (nl :: r) = ([[nl]] ++ (splitLines r).1, (splitLines r).2) := by
  rw [splitLines, if_pos rfl]

theorem splitLines_cons_ne_nil {c : Char} {r : List Char} (hc : c ≠ nl)
    (h : (splitLines r).1 = []) :
    splitLines (c :: r) = ([], c :: (splitLines r).2) := by
  rcases hh : splitLines r with ⟨L, R⟩
  rw [hh] at h
  simp at h
  subst h
  rw [splitLines, if_neg hc, hh]

theorem splitLines_cons_ne_cons {c : Char} {r l : List Char} {ls : List (List Char)}
    (hc : c ≠ nl) (h : (splitLines r).1 = l :: ls) :
    splitLines (c :: r) = ((c :: l) :: ls, (splitLines r).2) := by
  rcases hh : splitLines r with ⟨L, R⟩
  rw [hh] at h
  simp at h
  subst h
  rw [splitLines, if_neg hc, hh]

theorem splitLines_append (a b : List Char) :
    splitLines (a ++ b) =
      ((splitLines a).1 ++ (splitLines ((splitLines a).2 ++ b)).1,
        (splitLines ((splitLines a).2 ++ b)).2) := by
  induction a with
  | nil => simp [splitLines]
  | cons c a' ih =>
    by_cases hc : c = nl
    · subst hc
      show splitLines (nl :: (a' ++ b)) = _
      rw [splitLines_cons_nl, ih, splitLines_cons_nl]
      rfl
    · show splitLines (c :: (a' ++ b)) = _
      rcases hA : (splitLines a').1 with _ | ⟨l, ls⟩
      · have hca' : splitLines (c :: a') = ([], c :: (splitLines a').2) :=
          splitLines_cons_ne_nil hc hA
        rcases hY : (splitLines ((splitLines a').2 ++ b)).1 with _ | ⟨m, ms⟩
        · have h1 : splitLines (a' ++ b) = ([], (splitLines ((splitLines a').2 ++ b)).2) := by
            rw [ih, hA, hY]
            rfl
          have h2 : splitLines (c :: (a' ++ b))
              = ([], c :: (splitLines (a' ++ b)).2) := by
            apply splitLines_cons_ne_nil hc
            rw [h1]
          rw [h2, h1, hca']
          simp
          exact (splitLines_cons_ne_nil hc hY).symm
        · have h1 : splitLines (a' ++ b)
              = (m :: ms, (splitLines ((splitLines a').2 ++ b)).2) := by
            rw [ih, hA, hY]
            rfl
          have h2 : splitLines (c :: (a' ++ b))
              = ((c :: m) :: ms, (splitLines (a' ++ b)).2) := by
            apply splitLines_cons_ne_cons hc
            rw [h1]
          rw [h2, h1, hca']
          simp
          exact (splitLines_cons_ne_cons hc hY).symm
      · have hca2 : splitLines (c :: a') = ((c :: l) :: ls, (splitLines a').2) :=
          splitLines_cons_ne_cons hc hA
        have h1 : splitLines (a' ++ b)
            = (l :: (ls ++ (splitLines ((splitLines a').2 ++ b)).1),
              (splitLines ((splitLines a').2 ++ b)).2) := by
          rw [ih, hA]
          rfl
        have h2 : splitLines (c :: (a' ++ b))
            = ((c :: l) :: (ls ++ (splitLines ((splitLines a').2 ++ b)).1),
              (splitLines (a' ++ b)).2) := by
          apply splitLines_cons_ne_cons hc
          rw [h1]
        rw [h2, h1, hca2]
        rfl

/-! Composition of the per-part processing. -/

theorem drainBuf_append (b q : List Char) (cur : List (List Char)) :
    drainBuf (b ++ q) cur = drainBuf ((drainBuf b cur).1 ++ q) (drainBuf b cur).2 := by
  rw [drainBuf, drainBuf, drainBuf, splitLines_append b q]
  simp

theorem procPart_nil (s : St) : procPart s [] = s := by
  simp [procPart]

theorem procPart_append (s : St) (p q : List Char) :
    procPart s (p ++ q) = procPart (procPart s p) q := by
  by_cases hp : p = []
  · subst hp
    rw [List.nil_append, procPart_nil]
  · by_cases hq : q = []
    · subst hq
      rw [List.append_nil, procPart_nil]
    · have hpq : p ++ q ≠ [] := by simp [hp]
      by_cases hs : s.inCode
      · have h1 : procPart s p = { s with buffer := (drainBuf (s.buffer ++ p) s.cur).1, cur := (drainBuf (s.buffer ++ p) s.cur).2 } := by
          simp [procPart, hp, hs]
        have h2 : procPart s (p ++ q) = { s with buffer := (drainBuf (s.buffer ++ (p ++ q)) s.cur).1, cur := (drainBuf (s.buffer ++ (p ++ q)) s.cur).2 } := by
          simp [procPart, hpq, hs]
        rw [h2, h1]
        simp [procPart, hq, hs]
        rw [show s.buffer ++ (p ++ q) = (s.buffer ++ p) ++ q from
          (List.append_assoc s.buffer p q).symm,
          drainBuf_append (s.buffer ++ p) q s.cur]
        constructor <;> rfl
      · have h1 : procPart s p = s := by simp [procPart, hp, hs]
        have h2 : procPart s (p ++ q) = s := by simp [procPart, hpq, hs]
        have h3 : procPart s q = s := by simp [procPart, hq, hs]
        rw [h2, h1, h3]

theorem procRest_concat (s : St) (l1 l2 : List (List Char)) :
    procRest s (l1 ++ l2) = procRest (procRest s l1) l2 := by
  induction l1 generalizing s with
  | nil => rfl
  | cons p ps ih => exact ih (procPart (toggleFence s) p)

theorem procRest_glue (s : St) (xs ys : List (List Char)) (hx : xs ≠ []) (hy : ys ≠ []) :
    procRest s (glue xs ys) = procParts (procRest s xs) ys := by
  induction xs generalizing s with
  | nil => exact absurd rfl hx
  | cons x0 xs' ih =>
    rcases xs' with _ | ⟨x1, xs''⟩
    · rcases ys with _ | ⟨y0, ys'⟩
      · exact absurd rfl hy
      · show procRest s ((x0 ++ y0) :: ys') = _
        show procRest (procPart (toggleFence s) (x0 ++ y0)) ys' = _
        rw [procPart_append]
        rfl
    · have hglue : glue (x0 :: x1 :: xs'') ys = x0 :: glue (x1 :: xs'') ys := by
        rw [glue, glue, List.dropLast_cons₂, List.getLastD_cons]
        rfl
      rw [hglue]
      show procRest (procPart (toggleFence s) x0) (glue (x1 :: xs'') ys) = _
      rw [ih (procPart (toggleFence s) x0) (by simp) ]
      rfl

theorem procParts_glue (s : St) (xs ys : List (List Char)) (hx : xs ≠ []) (hy : ys ≠ []) :
    procParts s (glue xs ys) = procParts (procParts s xs) ys := by
  rcases xs with _ | ⟨x0, xs'⟩
  · exact absurd rfl hx
  · rcases xs' with _ | ⟨x1, xs''⟩
    · rcases ys with _ | ⟨y0, ys'⟩
      · exact absurd rfl hy
      · show procRest (procPart s (x0 ++ y0)) ys' = _
        rw [procPart_append]
        rfl
    · have hglue : glue (x0 :: x1 :: xs'') ys = x0 :: glue (x1 :: xs'') ys := by
        rw [glue, glue, List.dropLast_cons₂, List.getLastD_cons]
        rfl
      rw [hglue]
      show procRest (procPart s x0) (glue (x1 :: xs'') ys) = _
      rw [procRest_glue (procPart s x0) (x1 :: xs'') ys (by simp) hy]
      rfl

/-! The `full_content` accumulator is independent of the scanning state. -/

theorem toggleFence_full_set (s : St) (f : List Char) :
    toggleFence { s with full := f } = { toggleFence s with full := f } := by
  by_cases hs : s.inCode <;> simp [toggleFence, hs]

theorem procPart_full_set (s : St) (p : List Char) (f : List Char) :
    procPart { s with full := f } p = { procPart s p with full := f } := by
  by_cases hp : p = []
  · simp [procPart, hp]
  · by_cases hs : s.inCode <;> simp [procPart, hp, hs]

theorem procRest_full_set (s : St) (ps : List (List Char)) (f : List Char) :
    procRest { s with full := f } ps = { procRest s ps with full := f } := by
  induction ps generalizing s with
  | nil => rfl
  | cons p ps ih =>
    show procRest (procPart (toggleFence { s with full := f }) p) ps = _
    rw [toggleFence_full_set, procPart_full_set, ih]
    rfl

theorem procParts_full_set (s : St) (ps : List (List Char)) (f : List Char) :
    procParts { s with full := f } ps = { procParts s ps with full := f } := by
  rcases ps with _ | ⟨p, ps'⟩
  · rfl
  · show procRest (procPart { s with full := f } p) ps' = _
    rw [procPart_full_set, procRest_full_set]
    rfl

theorem st_eta (s : St) : { s with full := s.full } = s := by
  rcases s with ⟨a, b, c, d, e⟩
  rfl

/-- Processing one delta and then another is the same as processing their
concatenation, provided the first delta does not end in a backtick (so that
no fence marker straddles the boundary). -/
theorem procDelta_eq (s : St) (d : List Char) :
    procDelta s d = { procParts s (splitOnMarker d) with full := s.full ++ d } := by
  rw [procDelta, procParts_full_set]

theorem procDelta_append (s : St) (d1 d2 : List Char)
    (hl : d1.getLast? ≠ some btick) :
    procDelta s (d1 ++ d2) = procDelta (procDelta s d1) d2 := by
  rw [procDelta_eq s (d1 ++ d2), procDelta_eq s d1,
    procDelta_eq { procParts s (splitOnMarker d1) with full := s.full ++ d1 } d2,
    procParts_full_set]
  have hX : procParts s (splitOnMarker (d1 ++ d2))
      = procParts (procParts s (splitOnMarker d1)) (splitOnMarker d2) := by
    rw [splitOnMarker_append d2 hl]
    exact procParts_glue _ _ _ (splitOnMarker_ne_nil d1) (splitOnMarker_ne_nil d2)
  rw [hX]
  simp [procParts_full_set, List.append_assoc]

theorem procDelta_nil (s : St) : procDelta s [] = s := by
  rw [procDelta_eq]
  show ({ procPart s [] with full := s.full ++ [] } : St) = s
  rw [procPart_nil, List.append_nil, st_eta]

/-- Folding the scanner over a delta sequence in which no delta ends in a
backtick, except possibly the last, is the same as processing the whole
concatenation as one delta. -/
theorem procFold_flatten :
    ∀ (deltas : List (List Char)) (s : St),
      (∀ d ∈ deltas.dropLast, d.getLast? ≠ some btick) →
      procFold s deltas = procDelta s deltas.flatten := by
  intro deltas
  induction deltas with
  | nil =>
    intro s _
    show s = procDelta s []
    rw [procDelta_nil]
  | cons d ds ih =>
    intro s hnb
    rcases ds with _ | ⟨d2, ds'⟩
    · show procDelta s d = procDelta s ([d].flatten)
      simp
    · have hd : d.getLast? ≠ some btick := by
        apply hnb
        rw [List.dropLast_cons₂]
        exact List.mem_cons_self d _
      have hds : ∀ x ∈ (d2 :: ds').dropLast, x.getLast? ≠ some btick := by
        intro x hx
        apply hnb
        rw [List.dropLast_cons₂]
        exact List.mem_cons_of_mem d hx
      show procFold (procDelta s d) (d2 :: ds') = _
      rw [ih (procDelta s d) hds, ← procDelta_append s d _ hd]
      rfl

theorem procFold_full (deltas : List (List Char)) :
    ∀ s : St, (procFold s deltas).full = s.full ++ deltas.flatten := by
  induction deltas with
  | nil => intro s; simp [procFold]
  | cons d ds ih =>
    intro s
    show (procFold (procDelta s d) ds).full = _
    rw [ih (procDelta s d), procDelta_eq]
    simp [List.append_assoc]

theorem finishSt_full (s : St) : (finishSt s).full = s.full := by
  by_cases h : s.buffer ≠ [] ∧ s.inCode <;> simp [finishSt, h]

/-- The three-backtick fence marker. -/
def fence : List Char := [btick, btick, btick]

/-- C1 (amended).  The final accumulated plain text is split-invariant for
every way of cutting the response into deltas.  The final scanner state —
in particular the CODE_BLOCKS list — is split-invariant provided no delta
before the last one ends in a backtick, i.e. provided no fence marker or
backtick run is cut across a delta boundary.  (The unrestricted claim is
false: the per-delta split of source line 373 never buffers a partial
marker, see the counterexample.) -/
theorem C1_split_invariance (d1 d2 : List (List Char))
    (hjoin : d1.flatten = d2.flatten) :
    (procStream d1).full = (procStream d2).full ∧
    ((∀ d ∈ d1.dropLast, d.getLast? ≠ some btick) →
     (∀ d ∈ d2.dropLast, d.getLast? ≠ some btick) →
     procStream d1 = procStream d2) := by
  constructor
  · rw [procStream, procStream, finishSt_full, finishSt_full,
      procFold_full, procFold_full, hjoin]
  · intro h1 h2
    rw [procStream, procStream, procFold_flatten d1 _ h1,
      procFold_flatten d2 _ h2, hjoin]

theorem C1_split_invariance_witness :
    (["ab".toList] : List (List Char)).flatten = ["a".toList, "b".toList].flatten ∧
    ((procStream ["ab".toList]).full = (procStream ["a".toList, "b".toList]).full ∧
     ((∀ d ∈ (["ab".toList] : List (List Char)).dropLast, d.getLast? ≠ some btick) →
      (∀ d ∈ (["a".toList, "b".toList] : List (List Char)).dropLast, d.getLast? ≠ some btick) →
      procStream ["ab".toList] = procStream ["a".toList, "b".toList])) :=
  ⟨by decide, C1_split_invariance _ _ (by decide)⟩

/-- C1 counterexample: the same response text, split once with the fence
marker intact and once with the marker cut two-plus-one across a delta
boundary, yields different CODE_BLOCKS lists (and even a different number
of recognised fences), refuting the unrestricted split-invariance claim. -/
theorem C1_counterexample :
    (["a".toList ++ fence ++ "b\n".toList ++ fence ++ "c".toList] : List (List Char)).flatten
      = ["a".toList ++ [btick, btick], [btick] ++ "b\n".toList ++ fence ++ "c".toList].flatten ∧
    (procStream ["a".toList ++ fence ++ "b\n".toList ++ fence ++ "c".toList]).blocks
      = ["b\n".toList] ∧
    (procStream ["a".toList ++ [btick, btick], [btick] ++ "b\n".toList ++ fence ++ "c".toList]).blocks
      = ["c".toList] := by
  refine ⟨by decide, by decide, by decide⟩

/-! Balanced-fence extraction (claim C6). -/

/-- A response text built from a leading text segment followed by
fenced blocks: for each pair `(c, t)` an opening fence, the block content
`c`, a closing fence and the following text segment `t`. -/
def assemble (t0 : List Char) (ps : List (List Char × List Char)) : List Char :=
  t0 ++ (ps.map (fun p => fence ++ p.1 ++ fence ++ p.2)).flatten

theorem breakMarker_no_btick :
    ∀ {cs : List Char}, btick ∉ cs → breakMarker cs = none := by
  intro cs
  induction cs using breakMarker.induct with
  | case1 c1 c2 c3 r hm =>
    intro h
    exact absurd (hm.1 ▸ List.mem_cons_self c1 _) h
  | case2 c1 c2 c3 r hm ih =>
    intro h
    rw [breakMarker, if_neg hm, ih (fun hx => h (List.mem_cons_of_mem c1 hx))]
    rfl
  | case3 t hno =>
    intro _
    rcases t with _ | ⟨x, _ | ⟨y, _ | ⟨z, t'⟩⟩⟩
    · rfl
    · rfl
    · rfl
    · exact absurd rfl (hno x y z t')

theorem breakMarker_seg_fence {seg : List Char} (r : List Char) (h : btick ∉ seg) :
    breakMarker (seg ++ (fence ++ r)) = some (seg, r) := by
  induction seg with
  | nil =>
    show breakMarker (btick :: btick :: btick :: r) = some ([], r)
    rw [breakMarker, if_pos ⟨rfl, rfl, rfl⟩]
  | cons c seg' ih =>
    have hc : c ≠ btick := fun hq => h (hq ▸ List.mem_cons_self c seg')
    have h' : btick ∉ seg' := fun hx => h (List.mem_cons_of_mem c hx)
    rcases hdec : seg' ++ (fence ++ r) with _ | ⟨x, _ | ⟨y, t⟩⟩
    · exact absurd hdec (by simp [fence])
    · exact absurd hdec (by rcases seg' with _ | ⟨a, s'⟩ <;> simp [fence])
    · show breakMarker (c :: (seg' ++ (fence ++ r))) = _
      rw [hdec, breakMarker]
      rw [if_neg (fun hm => hc hm.1), ← hdec, ih h']
      rfl

theorem splitLines_flatten :
    ∀ b : List Char, (splitLines b).1.flatten ++ (splitLines b).2 = b := by
  intro b
  induction b with
  | nil => rfl
  | cons c r ih =>
    by_cases hc : c = nl
    · subst hc
      rw [splitLines_cons_nl]
      simpa using ih
    · rcases hA : (splitLines r).1 with _ | ⟨l, ls⟩
      · rw [splitLines_cons_ne_nil hc hA]
        rw [hA] at ih
        simpa using congrArg (c :: ·) ih
      · rw [splitLines_cons_ne_cons hc hA]
        rw [hA] at ih
        simpa using congrArg (c :: ·) ih

/-- Scanning the parts of a well-formed fenced body from a clean text state
commits exactly the block contents, in order. -/
theorem procRest_pairs :
    ∀ (ps : List (List Char × List Char)) (s : St),
      s.inCode = false → s.buffer = [] → s.cur = [] →
      procRest s ((ps.map (fun p => [p.1, p.2])).flatten)
        = { s with blocks := s.blocks ++ ps.map Prod.fst } := by
  intro ps
  induction ps with
  | nil =>
    intro s _ _ _
    show s = _
    rcases s with ⟨a, b, c, d, e⟩
    simp
  | cons p ps' ih =>
    intro s hic hbuf hcur
    show procRest (procPart (toggleFence s) p.1) ([p.2] ++ (ps'.map (fun p => [p.1, p.2])).flatten) = _
    have htog : toggleFence s = { s with inCode := true } := by
      simp [toggleFence, hic]
    have hopen : procPart (toggleFence s) p.1
        = { s with
            inCode := true
            buffer := (splitLines p.1).2
            cur := (splitLines p.1).1 } := by
      rw [htog]
      by_cases hp : p.1 = []
      · rw [hp, procPart_nil]
        simp [hbuf, hcur, splitLines]
      · simp [procPart, hp, drainBuf, hbuf, hcur]
    show procRest (procPart (toggleFence (procPart (toggleFence s) p.1)) p.2)
      ((ps'.map (fun p => [p.1, p.2])).flatten) = _
    have hclose : toggleFence (procPart (toggleFence s) p.1)
        = { s with
            inCode := false
            buffer := []
            cur := []
            blocks := s.blocks ++ [p.1] } := by
      rw [hopen, toggleFence]
      by_cases hb : (splitLines p.1).2 ≠ []
      · simp only [if_pos hb]
        have : ((splitLines p.1).1 ++ [(splitLines p.1).2]).flatten = p.1 := by
          rw [List.flatten_append]
          simpa using splitLines_flatten p.1
        simp [hb, this]
      · simp only [hb, if_neg]
        have hb' : (splitLines p.1).2 = [] := by
          by_contra hx
          exact hb hx
        have : (splitLines p.1).1.flatten = p.1 := by
          have := splitLines_flatten p.1
          rw [hb'] at this
          simpa using this
        simp [this]
    have hnext : procPart (toggleFence (procPart (toggleFence s) p.1)) p.2
        = { s with
            inCode := false
            buffer := []
            cur := []
            blocks := s.blocks ++ [p.1] } := by
      rw [hclose]
      by_cases hp : p.2 = []
      · rw [hp, procPart_nil]
      · simp [procPart, hp]
    rw [hnext, ih _ rfl rfl rfl]
    simp [hic, hbuf, hcur]

theorem splitOnMarker_assemble :
    ∀ (ps : List (List Char × List Char)) (t0 : List Char),
      btick ∉ t0 → (∀ p ∈ ps, btick ∉ p.1 ∧ btick ∉ p.2) →
      splitOnMarker (assemble t0 ps) = t0 :: (ps.map (fun p => [p.1, p.2])).flatten := by
  intro ps
  induction ps with
  | nil =>
    intro t0 h0 _
    show splitOnMarker (t0 ++ []) = [t0]
    rw [List.append_nil, splitOnMarker_break, breakMarker_no_btick h0]
  | cons p ps' ih =>
    intro t0 h0 hps
    have h1 : btick ∉ p.1 := (hps p (List.mem_cons_self p ps')).1
    have h2 : btick ∉ p.2 := (hps p (List.mem_cons_self p ps')).2
    have hps' : ∀ x ∈ ps', btick ∉ x.1 ∧ btick ∉ x.2 :=
      fun x hx => hps x (List.mem_cons_of_mem p hx)
    have hshape : assemble t0 (p :: ps')
        = t0 ++ (fence ++ (p.1 ++ (fence ++ assemble p.2 ps'))) := by
      simp [assemble, List.append_assoc]
    rw [hshape]
    have hL1 : splitOnMarker (t0 ++ (fence ++ (p.1 ++ (fence ++ assemble p.2 ps'))))
        = t0 :: splitOnMarker (p.1 ++ (fence ++ assemble p.2 ps')) := by
      rw [splitOnMarker_break, breakMarker_seg_fence _ h0]
    have hL2 : splitOnMarker (p.1 ++ (fence ++ assemble p.2 ps'))
        = p.1 :: splitOnMarker (assemble p.2 ps') := by
      rw [splitOnMarker_break, breakMarker_seg_fence _ h1]
    rw [hL1, hL2, ih p.2 h2 hps']
    simp

/-- C6 (amended).  For every delta sequence whose concatenation is a
well-formed fenced text — backtick-free segments separated by exact
three-backtick fences — and in which no delta boundary cuts through a
backtick run, the number of CODE_BLOCKS entries equals the number of fence
pairs and each entry is exactly the content between its fences.  (For
arbitrary delta sequences the claim is false, because a fence marker split
across two deltas is never recognised: see the counterexample.) -/
theorem C6_balanced_fences (t0 : List Char) (ps : List (List Char × List Char))
    (deltas : List (List Char))
    (hjoin : deltas.flatten = assemble t0 ps)
    (hnb : ∀ d ∈ deltas.dropLast, d.getLast? ≠ some btick)
    (h0 : btick ∉ t0) (hps : ∀ p ∈ ps, btick ∉ p.1 ∧ btick ∉ p.2) :
    (procStream deltas).blocks = ps.map Prod.fst ∧
    (procStream deltas).blocks.length = ps.length := by
  have ht : procPart initSt t0 = initSt := by
    by_cases hp : t0 = []
    · rw [hp, procPart_nil]
    · simp [procPart, hp, initSt]
  have hstate : procParts initSt (t0 :: (ps.map (fun p => [p.1, p.2])).flatten)
      = { initSt with blocks := List.map Prod.fst ps } := by
    show procRest (procPart initSt t0) ((ps.map (fun p => [p.1, p.2])).flatten) = _
    rw [ht, procRest_pairs ps initSt rfl rfl rfl]
    simp [initSt]
  have hmain : (procStream deltas).blocks = ps.map Prod.fst := by
    rw [procStream, procFold_flatten deltas initSt hnb, hjoin, procDelta_eq,
      splitOnMarker_assemble ps t0 h0 hps, hstate]
    simp [finishSt, initSt]
  exact ⟨hmain, by rw [hmain]; simp⟩

theorem C6_balanced_fences_witness :
    (([( "x = 1\n".toList, "done".toList )] : List (List Char × List Char)) ≠ [] →
      True) ∧
    ([("intro ".toList ++ fence ++ "x = 1\n".toList ++ fence ++ "done".toList)]
        : List (List Char)).flatten
      = assemble "intro ".toList [("x = 1\n".toList, "done".toList)] ∧
    (procStream ["intro ".toList ++ fence ++ "x = 1\n".toList ++ fence ++ "done".toList]).blocks
      = [("x = 1\n".toList, "done".toList)].map Prod.fst ∧
    (procStream ["intro ".toList ++ fence ++ "x = 1\n".toList ++ fence ++ "done".toList]).blocks.length
      = [("x = 1\n".toList, "done".toList)].length :=
  ⟨fun _ => trivial, by decide,
    C6_balanced_fences "intro ".toList [("x = 1\n".toList, "done".toList)] _
      (by decide) (by decide) (by decide) (by decide)⟩

/-- C6 counterexample: a delta sequence whose concatenation carries exactly
one balanced fence pair around content `a`, but split so that each marker is
cut across a delta boundary: the scanner emits zero blocks instead of one. -/
theorem C6_counterexample :
    ([[btick, btick], [btick] ++ "a".toList ++ [btick, btick], [btick]]
        : List (List Char)).flatten
      = fence ++ "a".toList ++ fence ∧
    (procStream [[btick, btick], [btick] ++ "a".toList ++ [btick, btick], [btick]]).blocks = [] ∧
    (procStream [fence ++ "a".toList ++ fence]).blocks = ["a".toList] :=
  ⟨by decide, by decide, by decide⟩

/-! The rich-renderer path extracts blocks after the fact with
`re.findall` of an opening fence, a lazy language line, a lazy capture and a
closing fence, in DOTALL mode (source lines 349-350). -/

/-- One attempt of the rich-path regex at the current position: an opening
fence, then the shortest run to a newline, then the shortest capture to a
closing fence.  Returns the capture and the remainder after the closing
fence.  A failed lazy extension of the language line cannot be rescued by a
longer one (any closing fence after a later newline is also after the first
newline), so one `breakMarker` search after the first newline is the exact
backtracking behaviour. -/
def tryMatch : List Char → Option (List Char × List Char)
  | c1 :: c2 :: c3 :: r =>
    if c1 = btick ∧ c2 = btick ∧ c3 = btick then
      match splitAtFirst nl r with
      | none => none
      | some (_, r2) =>
        match breakMarker r2 with
        | none => none
        | some (blk, after) => some (blk, after)
    else none
  | _ => none

/-- Fuelled scan of `re.findall`: try a match at each position, emit the
capture and continue after a match, else advance one character.  The fuel is
only a termination device: every step consumes at least one character, so
fuel equal to the text length never runs out. -/
def richFindAux : Nat → List Char → List (List Char)
  | 0, _ => []
  | _, [] => []
  | Nat.succ n, c :: rest =>
    match tryMatch (c :: rest) with
    | some (blk, after) => blk :: richFindAux n after
    | none => richFindAux n rest

/-- `re.findall` of the rich-path block regex over the accumulated text
(source line 349). -/
def richFind (cs : List Char) : List (List Char) :=
  richFindAux cs.length cs

/-! Model of the `:copy` and `:diff` command handlers. -/

/-- The process-wide state a `:copy` or `:diff` command can observe:
the CODE_BLOCKS list, the conversation history and the mode/phase/depth/
format settings (source lines 60-74). -/
structure AppState where
  codeBlocks : List (List Char)
  messages : List (List Char)
  secMode : List Char
  phase : List Char
  depth : List Char
  fmt : List Char
deriving Repr, DecidableEq

/-- Outcome reported by a `:copy` or `:diff` command. -/
inductive CmdOut
  | copied (content : List Char)
  | diffed (content : List Char)
  | errNoBlocks
  | errNotFound
  | errFileMissing
deriving Repr, DecidableEq

/-- Is the outcome a failure report? -/
def isErrOut : CmdOut → Bool
  | .copied _ => false
  | .diffed _ => false
  | _ => true

/-- The `:copy` handler (source lines 521-540): with no blocks it reports
failure; otherwise the zero-based index is the parsed argument minus one, or
the last block when no argument is given; an index outside `[0, len)` is
reported as not found.  No branch modifies any program state. -/
def cmdCopy (st : AppState) (arg : Option Int) : AppState × CmdOut :=
  if st.codeBlocks = [] then (st, .errNoBlocks)
  else
    let idx : Int :=
      match arg with
      | some n => n - 1
      | none => (st.codeBlocks.length : Int) - 1
    if 0 ≤ idx ∧ idx < (st.codeBlocks.length : Int) then
      (st, .copied (st.codeBlocks.getD idx.toNat []))
    else (st, .errNotFound)

/-- The `:diff` handler (source lines 435-474): the zero-based index is
computed first (line 438), then a missing file, an empty block list and an
out-of-range index are reported in that order.  No branch modifies any
program state. -/
def cmdDiff (st : AppState) (fileExists : Bool) (arg : Option Int) : AppState × CmdOut :=
  let idx : Int :=
    match arg with
    | some n => n - 1
    | none => (st.codeBlocks.length : Int) - 1
  if ¬ fileExists then (st, .errFileMissing)
  else if st.codeBlocks = [] then (st, .errNoBlocks)
  else if 0 ≤ idx ∧ idx < (st.codeBlocks.length : Int) then
    (st, .diffed (st.codeBlocks.getD idx.toNat []))
  else (st, .errNotFound)

/-- The delta sequence of the concrete scenario of claim C3. -/
def c3Deltas : List (List Char) :=
  ["Here is ".toList, "code:\n".toList ++ fence ++ "py".toList,
    "\nx = 1\n".toList, fence ++ "\ndone".toList]

/-- An `AppState` holding the given blocks, as observed right after a
stream call. -/
def mkApp (blocks : List (List Char)) : AppState :=
  { codeBlocks := blocks, messages := [], secMode := "lab".toList,
    phase := "recon".toList, depth := "normal".toList, fmt := "raw".toList }

/-- C3 (amended).  On the concrete scenario deltas, the final accumulated
text is exactly as claimed, but the raw path commits the block including the
language-tag line: CODE_BLOCKS ends up `["py\nx = 1\n"]`, with block 1
retrievable via its 1-based index; the claimed value `["x = 1\n"]` is what
the post-hoc rich-path extraction of the same final text yields, because its
regex skips everything up to the first newline after the opening fence. -/
theorem C3_concrete_scenario :
    (procStream c3Deltas).full
      = "Here is code:\n".toList ++ fence ++ "py\nx = 1\n".toList ++ fence ++ "\ndone".toList ∧
    (procStream c3Deltas).blocks = ["py\nx = 1\n".toList] ∧
    (cmdCopy (mkApp (procStream c3Deltas).blocks) (some 1)).2
      = CmdOut.copied "py\nx = 1\n".toList ∧
    richFind (procStream c3Deltas).full = ["x = 1\n".toList] :=
  ⟨by decide, by decide, by decide, by decide⟩

/-- C3 counterexample: the raw-path scanner on the scenario deltas does not
produce the claimed CODE_BLOCKS value `["x = 1\n"]` — the language-tag line
`py\n` is part of the committed block. -/
theorem C3_counterexample :
    (procStream c3Deltas).blocks = ["py\nx = 1\n".toList] ∧
    (procStream c3Deltas).blocks ≠ ["x = 1\n".toList] :=
  ⟨by decide, by decide⟩

/-- C4 (amended).  When the stream ends while still inside a code block, the
raw path commits the accumulated content as a final CODE_BLOCKS entry if and
only if the partial-line buffer is non-empty (source line 416 tests
`if buffer and in_code_block`): a non-empty buffer flushes buffer and
accumulated lines; an empty buffer — an unterminated block whose content
ends in a newline — commits nothing, and the accumulated lines are dropped.
(The rich path drops every unterminated block: its regex requires a closing
fence; see the counterexample.) -/
theorem C4_unterminated_flush (deltas : List (List Char))
    (hin : (procFold initSt deltas).inCode = true) :
    ((procFold initSt deltas).buffer ≠ [] →
      (procStream deltas).blocks = (procFold initSt deltas).blocks
        ++ [((procFold initSt deltas).cur ++ [(procFold initSt deltas).buffer]).flatten]) ∧
    ((procFold initSt deltas).buffer = [] →
      (procStream deltas).blocks = (procFold initSt deltas).blocks) := by
  constructor
  · intro hb
    rw [procStream, finishSt, if_pos ⟨hb, hin⟩]
  · intro hb
    rw [procStream, finishSt, if_neg (fun hx => hx.1 hb)]

theorem C4_unterminated_flush_witness :
    (procFold initSt [fence ++ "py\nx".toList]).inCode = true ∧
    ((procFold initSt [fence ++ "py\nx".toList]).buffer ≠ [] →
      (procStream [fence ++ "py\nx".toList]).blocks
        = (procFold initSt [fence ++ "py\nx".toList]).blocks
          ++ [((procFold initSt [fence ++ "py\nx".toList]).cur
            ++ [(procFold initSt [fence ++ "py\nx".toList]).buffer]).flatten]) ∧
    ((procFold initSt [fence ++ "py\nx".toList]).buffer = [] →
      (procStream [fence ++ "py\nx".toList]).blocks
        = (procFold initSt [fence ++ "py\nx".toList]).blocks) :=
  ⟨by decide, C4_unterminated_flush [fence ++ "py\nx".toList] (by decide)⟩

/-- C4 counterexample: a stream ending inside a fence with accumulated
content `a\nb\n` (complete lines, empty partial-line buffer) commits
nothing: final CODE_BLOCKS is empty in the raw path, and the rich-path
extraction of the same text also finds nothing — the in-progress code is
dropped, refuting the claim for both paths. -/
theorem C4_counterexample :
    (procFold initSt [fence ++ "a\nb\n".toList]).inCode = true ∧
    (procFold initSt [fence ++ "a\nb\n".toList]).cur = ["a\n".toList, "b\n".toList] ∧
    (procStream [fence ++ "a\nb\n".toList]).blocks = [] ∧
    richFind (fence ++ "a\nb\n".toList) = [] :=
  ⟨by decide, by decide, by decide, by decide⟩

theorem getD_last {α : Type} (l : List α) (h : l ≠ []) (d : α) :
    l.getD (l.length - 1) d = l.getLastD d := by
  induction l with
  | nil => exact absurd rfl h
  | cons x t ih =>
    rcases t with _ | ⟨y, t'⟩
    · rfl
    · show (x :: y :: t').getD (t'.length + 1) d = _
      rw [List.getD_cons_succ, List.getLastD_cons]
      exact ih (by simp)

/-- C9 (confirmed).  Requesting block index 0, or an index beyond the
current CODE_BLOCKS length, through `:copy` or `:diff` produces a failure
report and leaves the whole program state — blocks, history, mode and phase
settings — unchanged; when the block list is non-empty (and, for `:diff`,
the file exists) the report is precisely the out-of-range one. -/
theorem C9_out_of_range (st : AppState) (n : Int) (fe : Bool)
    (h : n = 0 ∨ (st.codeBlocks.length : Int) < n) :
    (cmdCopy st (some n)).1 = st ∧
    isErrOut (cmdCopy st (some n)).2 = true ∧
    (st.codeBlocks ≠ [] → (cmdCopy st (some n)).2 = CmdOut.errNotFound) ∧
    (cmdDiff st fe (some n)).1 = st ∧
    isErrOut (cmdDiff st fe (some n)).2 = true ∧
    (fe = true → st.codeBlocks ≠ [] → (cmdDiff st fe (some n)).2 = CmdOut.errNotFound) := by
  have hrange : ¬ (0 ≤ n - 1 ∧ n - 1 < (st.codeBlocks.length : Int)) := by
    rcases h with h0 | hgt
    · subst h0
      intro hx
      omega
    · intro hx
      omega
  by_cases hnil : st.codeBlocks = []
  · refine ⟨?_, ?_, fun hne => absurd hnil hne, ?_, ?_, fun _ hne => absurd hnil hne⟩
    · rw [cmdCopy, if_pos hnil]
    · rw [cmdCopy, if_pos hnil]; rfl
    · rcases fe with _ | _
      · rw [cmdDiff]; rfl
      · rw [cmdDiff, if_neg (by simp), if_pos hnil]
    · rcases fe with _ | _
      · rw [cmdDiff]; rfl
      · rw [cmdDiff, if_neg (by simp), if_pos hnil]; rfl
  · have hcopy : cmdCopy st (some n) = (st, CmdOut.errNotFound) := by
      rw [cmdCopy, if_neg hnil]
      simp only [if_neg hrange]
    refine ⟨by rw [hcopy], by rw [hcopy]; rfl, fun _ => by rw [hcopy], ?_, ?_, ?_⟩
    · rcases fe with _ | _
      · rw [cmdDiff]; rfl
      · rw [cmdDiff, if_neg (by simp), if_neg hnil]
        simp only [if_neg hrange]
    · rcases fe with _ | _
      · rw [cmdDiff]; rfl
      · rw [cmdDiff, if_neg (by simp), if_neg hnil]
        simp only [if_neg hrange]
        rfl
    · intro hfe hne
      subst hfe
      rw [cmdDiff, if_neg (by simp), if_neg hnil]
      simp only [if_neg hrange]

theorem C9_out_of_range_witness :
    ((3 : Int) = 0 ∨ ((mkApp ["a".toList]).codeBlocks.length : Int) < 3) ∧
    ((cmdCopy (mkApp ["a".toList]) (some 3)).1 = mkApp ["a".toList] ∧
     isErrOut (cmdCopy (mkApp ["a".toList]) (some 3)).2 = true ∧
     ((mkApp ["a".toList]).codeBlocks ≠ [] →
       (cmdCopy (mkApp ["a".toList]) (some 3)).2 = CmdOut.errNotFound) ∧
     (cmdDiff (mkApp ["a".toList]) true (some 3)).1 = mkApp ["a".toList] ∧
     isErrOut (cmdDiff (mkApp ["a".toList]) true (some 3)).2 = true ∧
     (true = true → (mkApp ["a".toList]).codeBlocks ≠ [] →
       (cmdDiff (mkApp ["a".toList]) true (some 3)).2 = CmdOut.errNotFound)) :=
  ⟨by decide, C9_out_of_range (mkApp ["a".toList]) 3 true (by decide)⟩

/-- C10 (confirmed).  `:copy` and `:diff` invoked without an explicit block
number and with a non-empty CODE_BLOCKS list target the last captured block
(1-based index equal to the list length), leaving state unchanged. -/
theorem C10_default_last (st : AppState) (h : st.codeBlocks ≠ []) :
    (cmdCopy st none).2 = CmdOut.copied (st.codeBlocks.getLastD []) ∧
    (cmdCopy st none).1 = st ∧
    (cmdDiff st true none).2 = CmdOut.diffed (st.codeBlocks.getLastD []) ∧
    (cmdDiff st true none).1 = st := by
  have hlen : 1 ≤ st.codeBlocks.length := by
    rcases hb : st.codeBlocks with _ | ⟨x, t⟩
    · exact absurd hb h
    · simp
  have hrange : 0 ≤ (st.codeBlocks.length : Int) - 1
      ∧ (st.codeBlocks.length : Int) - 1 < (st.codeBlocks.length : Int) := by
    omega
  have htoNat : ((st.codeBlocks.length : Int) - 1).toNat = st.codeBlocks.length - 1 := by
    omega
  have hget : st.codeBlocks.getD ((st.codeBlocks.length : Int) - 1).toNat []
      = st.codeBlocks.getLastD [] := by
    rw [htoNat, getD_last st.codeBlocks h]
  refine ⟨?_, ?_, ?_, ?_⟩
  · rw [cmdCopy, if_neg h]
    simp only [if_pos hrange]
    rw [hget]
  · rw [cmdCopy, if_neg h]
    simp only [if_pos hrange]
  · rw [cmdDiff, if_neg (by simp), if_neg h]
    simp only [if_pos hrange]
    rw [hget]
  · rw [cmdDiff, if_neg (by simp), if_neg h]
    simp only [if_pos hrange]

theorem C10_default_last_witness :
    (mkApp ["a".toList, "b".toList]).codeBlocks ≠ [] ∧
    ((cmdCopy (mkApp ["a".toList, "b".toList]) none).2
      = CmdOut.copied ((mkApp ["a".toList, "b".toList]).codeBlocks.getLastD []) ∧
     (cmdCopy (mkApp ["a".toList, "b".toList]) none).1 = mkApp ["a".toList, "b".toList] ∧
     (cmdDiff (mkApp ["a".toList, "b".toList]) true none).2
      = CmdOut.diffed ((mkApp ["a".toList, "b".toList]).codeBlocks.getLastD []) ∧
     (cmdDiff (mkApp ["a".toList, "b".toList]) true none).1 = mkApp ["a".toList, "b".toList]) :=
  ⟨by decide, C10_default_last (mkApp ["a".toList, "b".toList]) (by decide)⟩

/-! Line-level model of the two `stream_completion` loops.

The network lines of source lines 361-368 are modelled after JSON decoding:
a falsy line (`if not line: continue`), a line without the `data: ` marker, the
`data: [DONE]` sentinel, a line whose payload fails `json.loads`
(`except json.JSONDecodeError: continue`), a line whose JSON parses but lacks
the `choices[0]` shape (so that `chunk["choices"][0]` raises a KeyError or
IndexError, which the loops do NOT catch), and a well-formed chunk carrying
the extracted `delta.content` string, the optional `usage` counters and the
`finish_reason` value. -/

/-- A well-formed decoded chunk. -/
structure SChunk where
  delta : List Char
  usage : Option (Nat × Nat)
  finish : List Char
deriving Repr, DecidableEq

/-- One decoded stream line, classified as the loops of lines 361-368 do. -/
inductive SLine
  | blank
  | noData
  | doneMark
  | badJson
  | badShape
  | chunk (c : SChunk)
deriving Repr, DecidableEq

/-- What one `stream_completion` call leaves behind: the returned
accumulated text and finish reason, the global CODE_BLOCKS value, and the
global usage counters. -/
structure StreamRes where
  full : List Char
  finish : List Char
  blocks : List (List Char)
  promptTok : Nat
  complTok : Nat
deriving Repr, DecidableEq

/-- Mutable state of the raw-path loop. -/
structure RawSt where
  st : St
  promptTok : Nat
  complTok : Nat
  finish : List Char
deriving Repr, DecidableEq

/-- The string "error" returned as finish reason on an uncaught in-loop
exception (source line 423). -/
def errStr : List Char := "error".toList

/-- Normal exit of the raw loop: flush the buffer (lines 415-419) and return
the accumulated text with the last observed finish reason (line 427). -/
def rawFinish (s : RawSt) : StreamRes :=
  { full := (finishSt s.st).full
    finish := s.finish
    blocks := (finishSt s.st).blocks
    promptTok := s.promptTok
    complTok := s.complTok }

/-- The raw-path loop (source lines 360-427).  Blank, non-data and
non-JSON lines are skipped; `data: [DONE]` breaks out (and the flush still
runs); a bad-shape chunk raises inside the `try`, so the `except` of
line 421 returns immediately — partial text, reason "error", no flush; a
chunk with empty content is skipped entirely (line 370) before usage and
finish-reason are updated; otherwise the delta is processed and usage and
finish-reason are updated. -/
def rawRun (s : RawSt) : List SLine → StreamRes
  | [] => rawFinish s
  | l :: rest =>
    match l with
    | .blank => rawRun s rest
    | .noData => rawRun s rest
    | .doneMark => rawFinish s
    | .badJson => rawRun s rest
    | .badShape =>
      { full := s.st.full
        finish := errStr
        blocks := s.st.blocks
        promptTok := s.promptTok
        complTok := s.complTok }
    | .chunk c =>
      if c.delta = [] then rawRun s rest
      else
        rawRun
          { st := procDelta s.st c.delta
            promptTok := match c.usage with | some u => u.1 | none => s.promptTok
            complTok := match c.usage with | some u => u.2 | none => s.complTok
            finish := c.finish } rest

/-- Raw-path loop state at the start of a call. -/
def initRaw : RawSt := { st := initSt, promptTok := 0, complTok := 0, finish := [] }

/-- Mutable state of the rich-path loop (lines 326-344). -/
structure RichSt where
  full : List Char
  promptTok : Nat
  complTok : Nat
  finish : List Char
deriving Repr, DecidableEq

/-- Exit of the rich path: CODE_BLOCKS is populated post hoc by the regex
extraction over the full accumulated text (lines 349-350). -/
def richFinish (s : RichSt) : StreamRes :=
  { full := s.full
    finish := s.finish
    blocks := richFind s.full
    promptTok := s.promptTok
    complTok := s.complTok }

/-- The rich-path loop (source lines 326-353).  Identical line handling,
except that a chunk with empty content still updates usage and
finish-reason (they sit outside the `if delta:` guard), and a bad-shape
chunk raises out of the whole function (only `json.JSONDecodeError` is
caught there): result `none`. -/
def richRun (s : RichSt) : List SLine → Option StreamRes
  | [] => some (richFinish s)
  | l :: rest =>
    match l with
    | .blank => richRun s rest
    | .noData => richRun s rest
    | .doneMark => some (richFinish s)
    | .badJson => richRun s rest
    | .badShape => none
    | .chunk c =>
      richRun
        { full := if c.delta = [] then s.full else s.full ++ c.delta
          promptTok := match c.usage with | some u => u.1 | none => s.promptTok
          complTok := match c.usage with | some u => u.2 | none => s.complTok
          finish := c.finish } rest

/-- Rich-path loop state at the start of a call. -/
def initRich : RichSt := { full := [], promptTok := 0, complTok := 0, finish := [] }

/-- Resetting the global CODE_BLOCKS list — source line 317, executed after
a successful `requests.post`, before either rendering path. -/
def clearBlocks (st : St) : St := { st with blocks := [] }

/-- Outcome of the `requests.post` call that opens a `stream_completion`
call (source lines 289-311): `connFail` covers the `Timeout`,
`ConnectionError` and `RequestException` handlers, each of which prints a
diagnostic and executes `return "", "error"` — before the `CODE_BLOCKS = []`
reset of line 317 ever runs; `connOk` carries the decoded line stream of a
successful connection. -/
inductive ConnResult
  | connFail
  | connOk (lines : List SLine)
deriving Repr, DecidableEq

/-- What one whole `stream_completion` call leaves behind: the returned
accumulated text and finish reason, and the value of the global CODE_BLOCKS
list after the call. -/
structure CallRes where
  full : List Char
  finish : List Char
  blocks : List (List Char)
deriving Repr, DecidableEq

/-- A whole raw-path `stream_completion` call: `prev` is the CODE_BLOCKS
value left over from the previous response.  On a connection failure
(lines 303-311) the call returns `("", "error")` before line 317, so `prev`
is left in place; on a successful connection line 317 clears it and the
streaming loop runs. -/
def stream_completion_raw (prev : List (List Char)) : ConnResult → CallRes
  | .connFail => { full := [], finish := errStr, blocks := prev }
  | .connOk lines =>
    let r := rawRun { st := clearBlocks { initSt with blocks := prev }
                      promptTok := 0, complTok := 0, finish := [] } lines
    { full := r.full, finish := r.finish, blocks := r.blocks }

/-- A whole rich-path `stream_completion` call: the connection-failure
returns (lines 303-311) are shared with the raw path and also precede the
line-317 reset; on success the final CODE_BLOCKS value is rebuilt from this
response's text alone (`none` when a bad-shape chunk raises out of the
call). -/
def stream_completion_rich (prev : List (List Char)) : ConnResult → Option CallRes
  | .connFail => some { full := [], finish := errStr, blocks := prev }
  | .connOk lines =>
    (richRun { full := (clearBlocks { initSt with blocks := prev }).full
               promptTok := 0, complTok := 0, finish := [] } lines).map
      (fun r => { full := r.full, finish := r.finish, blocks := r.blocks })

theorem procDelta_full (s : St) (d : List Char) : (procDelta s d).full = s.full ++ d := by
  rw [procDelta_eq]

/-- C7 (amended).  A stream line whose payload fails JSON parsing is skipped
by both rendering paths and processing continues with the next line (it can
be deleted from the line sequence without changing the outcome).  A line
whose JSON parses but lacks the expected `choices[0]` shape, however, aborts
the stream: the raw path catches the exception and returns the partial text
with finish reason "error"; the rich path propagates it (see the
counterexample). -/
theorem C7_bad_json_skipped (xs ys : List SLine) :
    (∀ s : RawSt, rawRun s (xs ++ SLine.badJson :: ys) = rawRun s (xs ++ ys)) ∧
    (∀ rs : RichSt, richRun rs (xs ++ SLine.badJson :: ys) = richRun rs (xs ++ ys)) := by
  constructor
  · induction xs with
    | nil => intro s; rfl
    | cons l xs' ih =>
      intro s
      rcases l with _ | _ | _ | _ | _ | c
      · exact ih s
      · exact ih s
      · rfl
      · exact ih s
      · rfl
      · show (if c.delta = [] then _ else _) = (if c.delta = [] then _ else _)
        by_cases hd : c.delta = []
        · rw [if_pos hd, if_pos hd]
          exact ih s
        · rw [if_neg hd, if_neg hd]
          exact ih _
  · induction xs with
    | nil => intro rs; rfl
    | cons l xs' ih =>
      intro rs
      rcases l with _ | _ | _ | _ | _ | c
      · exact ih rs
      · exact ih rs
      · rfl
      · exact ih rs
      · rfl
      · exact ih _

/-- C7 counterexample: a line that parses as JSON but has no usable
`choices[0]` is not skipped.  After one content chunk it aborts the raw
stream — the following chunk is never processed, the partial text "a" is
returned with reason "error" — whereas deleting the bad line yields "ab";
the rich path raises out of the call entirely. -/
theorem C7_counterexample :
    rawRun initRaw [SLine.chunk ⟨"a".toList, none, []⟩, SLine.badShape,
        SLine.chunk ⟨"b".toList, none, []⟩]
      = { full := "a".toList, finish := errStr, blocks := [], promptTok := 0, complTok := 0 } ∧
    rawRun initRaw [SLine.chunk ⟨"a".toList, none, []⟩,
        SLine.chunk ⟨"b".toList, none, []⟩]
      = { full := "ab".toList, finish := [], blocks := [], promptTok := 0, complTok := 0 } ∧
    richRun initRich [SLine.chunk ⟨"a".toList, none, []⟩, SLine.badShape,
        SLine.chunk ⟨"b".toList, none, []⟩] = none :=
  ⟨by decide, by decide, by decide⟩

/-- C2 (amended).  As long as no line has the bad `choices[0]` shape, the
rich-renderer path and the raw fallback path accumulate exactly the same
final text.  They do not agree on the rest of the final state: the raw path
commits blocks including the language-tag line and flushes a non-empty
unterminated buffer, while the rich path's post-hoc regex excludes the tag
line and drops unterminated blocks; and the raw path skips empty-content
chunks entirely, so usage counters and finish reason can differ too (see
the counterexample for both divergences). -/
theorem C2_paths_agree_on_text (lines : List SLine) (h : SLine.badShape ∉ lines) :
    (richRun initRich lines).map StreamRes.full = some ((rawRun initRaw lines).full) := by
  suffices haux : ∀ (ls : List SLine) (rs : RichSt) (s : RawSt), SLine.badShape ∉ ls →
      rs.full = s.st.full →
      (richRun rs ls).map StreamRes.full = some ((rawRun s ls).full) from
    haux lines initRich initRaw h rfl
  intro ls
  induction ls with
  | nil =>
    intro rs s _ hfull
    show some (richFinish rs).full = some ((rawFinish s).full)
    rw [richFinish, rawFinish]
    simp [finishSt_full, hfull]
  | cons l rest ih =>
    intro rs s hmem hfull
    have hrest : SLine.badShape ∉ rest := fun hx => hmem (List.mem_cons_of_mem _ hx)
    rcases l with _ | _ | _ | _ | _ | c
    · exact ih rs s hrest hfull
    · exact ih rs s hrest hfull
    · show some (richFinish rs).full = some ((rawFinish s).full)
      rw [richFinish, rawFinish]
      simp [finishSt_full, hfull]
    · exact ih rs s hrest hfull
    · exact absurd (List.mem_cons_self _ _) hmem
    · have hrich : richRun rs (SLine.chunk c :: rest)
          = richRun ⟨if c.delta = [] then rs.full else rs.full ++ c.delta, (match c.usage with | some u => u.1 | none => rs.promptTok), (match c.usage with | some u => u.2 | none => rs.complTok), c.finish⟩ rest := rfl
      by_cases hd : c.delta = []
      · have hraw : rawRun s (SLine.chunk c :: rest) = rawRun s rest := by
          show (if c.delta = [] then _ else _) = _
          rw [if_pos hd]
        rw [hrich, hraw]
        exact ih _ s hrest (by simp [hd, hfull])
      · have hraw : rawRun s (SLine.chunk c :: rest)
            = rawRun ⟨procDelta s.st c.delta, (match c.usage with | some u => u.1 | none => s.promptTok), (match c.usage with | some u => u.2 | none => s.complTok), c.finish⟩ rest := by
          show (if c.delta = [] then _ else _) = _
          rw [if_neg hd]
        rw [hrich, hraw]
        exact ih _ _ hrest (by simp [hd, hfull, procDelta_full])

theorem C2_paths_agree_on_text_witness :
    SLine.badShape ∉ [SLine.chunk ⟨"hi".toList, some (3, 4), "stop".toList⟩, SLine.doneMark] ∧
    (richRun initRich [SLine.chunk ⟨"hi".toList, some (3, 4), "stop".toList⟩,
        SLine.doneMark]).map StreamRes.full
      = some ((rawRun initRaw [SLine.chunk ⟨"hi".toList, some (3, 4), "stop".toList⟩,
        SLine.doneMark]).full) :=
  ⟨by decide, C2_paths_agree_on_text _ (by decide)⟩

/-- C2 counterexample: the two paths do not converge on identical final
state.  On a single chunk opening a fence with content `py\nx` the raw path
commits CODE_BLOCKS = ["py\nx"] while the rich path commits none; and on a
single empty-content chunk carrying usage and finish data the raw path
skips the chunk (usage 0/0, empty finish reason) while the rich path
records usage 5/7 and finish "stop". -/
theorem C2_counterexample :
    (rawRun initRaw [SLine.chunk ⟨fence ++ "py\nx".toList, none, []⟩]).blocks
      = ["py\nx".toList] ∧
    (richRun initRich [SLine.chunk ⟨fence ++ "py\nx".toList, none, []⟩]).map StreamRes.blocks
      = some [] ∧
    (rawRun initRaw [SLine.chunk ⟨[], some (5, 7), "stop".toList⟩]).finish = [] ∧
    (rawRun initRaw [SLine.chunk ⟨[], some (5, 7), "stop".toList⟩]).promptTok = 0 ∧
    (richRun initRich [SLine.chunk ⟨[], some (5, 7), "stop".toList⟩]).map StreamRes.finish
      = some "stop".toList ∧
    (richRun initRich [SLine.chunk ⟨[], some (5, 7), "stop".toList⟩]).map StreamRes.promptTok
      = some 5 :=
  ⟨by decide, by decide, by decide, by decide, by decide, by decide⟩

/-- C8 (amended).  On every call that gets past `requests.post`, line 317
reassigns CODE_BLOCKS to the empty list before either rendering path runs:
the whole result — in particular the final CODE_BLOCKS value — is then
independent of whatever blocks the previous response had left, and the
raw-path result equals a run started from the pristine initial state.  But
a call that fails with `Timeout`, `ConnectionError` or `RequestException`
returns `("", "error")` at lines 303-311, before the reset: after such a
call the previous response's blocks are retained unchanged (see the
counterexample). -/
theorem C8_blocks_cleared (prev : List (List Char)) (lines : List SLine) :
    stream_completion_raw prev (ConnResult.connOk lines)
      = stream_completion_raw [] (ConnResult.connOk lines) ∧
    stream_completion_rich prev (ConnResult.connOk lines)
      = stream_completion_rich [] (ConnResult.connOk lines) ∧
    (stream_completion_raw prev (ConnResult.connOk lines)).blocks
      = (rawRun initRaw lines).blocks ∧
    stream_completion_raw prev ConnResult.connFail
      = { full := [], finish := errStr, blocks := prev } ∧
    stream_completion_rich prev ConnResult.connFail
      = some { full := [], finish := errStr, blocks := prev } :=
  ⟨rfl, rfl, rfl, rfl, rfl⟩

/-- C8 counterexample: blocks are not cleared at the start of every call and
can be retained into and after the next call.  A `stream_completion` call
that fails at the connection stage returns before the line-317 reset: the
previous response's CODE_BLOCKS value survives the call — and `:copy`
afterwards still retrieves the old block — refuting the claim for such
calls, in both rendering paths. -/
theorem C8_counterexample :
    (stream_completion_raw ["old".toList] ConnResult.connFail).blocks = ["old".toList] ∧
    (stream_completion_rich ["old".toList] ConnResult.connFail).map CallRes.blocks
      = some ["old".toList] ∧
    (["old".toList] : List (List Char)) ≠ [] ∧
    (cmdCopy (mkApp (stream_completion_raw ["old".toList] ConnResult.connFail).blocks)
        none).2 = CmdOut.copied "old".toList :=
  ⟨by decide, by decide, by decide, by decide⟩

/-! The syntax highlighter (source lines 248-281).

The Python regex passes are modelled over `List Char` with the exact scan
semantics of `re.sub`: leftmost matches, non-overlapping, scanning the input
string (replacements never affect later matches).  Word characters follow
the ASCII reading of `\w` and `\d`, which covers every keyword and color
code involved. -/

/-- The keyword list of source lines 248-252, in source order (the order is
the alternation order of the compiled pattern `KW_PATTERN`). -/
def KEYWORDS : List (List Char) :=
  ["def", "class", "import", "from", "return", "if", "elif", "else", "while",
   "for", "in", "try", "except", "raise", "print", "with", "as", "pass",
   "break", "continue", "True", "False", "None", "async", "await", "lambda",
   "global", "nonlocal", "assert", "del"].map String.toList

/-- A regex word character (`\w`), ASCII reading. -/
def isWordChar (c : Char) : Bool := c.isAlphanum || c = '_'

/-- Boolean prefix test, spelled out so proofs can unfold it one character
at a time. -/
def isPre : List Char → List Char → Bool
  | [], _ => true
  | _ :: _, [] => false
  | a :: as, b :: bs => a == b && isPre as bs

/-- Word-boundary test against the character just before the current scan
position (`none` at the start of the string). -/
def boundaryB : Option Char → Bool
  | none => true
  | some c => !(isWordChar c)

/-- Word-boundary test against the character at the head of the remaining
text (end of string is a boundary). -/
def boundaryA : List Char → Bool
  | [] => true
  | c :: _ => !(isWordChar c)

theorem splitAtFirst_length {q : Char} {cs b r : List Char}
    (h : splitAtFirst q cs = some (b, r)) : r.length < cs.length := by
  have := splitAtFirst_eq h
  subst this
  simp
  omega

/-- One pass of `re.sub(r'(q.*?q)', color + match + reset, text)` for a
quote character `q` (source lines 268-269): find the leftmost quote, then
the nearest closing quote; `.` does not match a newline, so a newline
before the nearest closing quote kills the match attempt at that opening
quote and scanning resumes right after it. -/
def subQuote (q : Char) (cs : List Char) : List Char :=
  match h1 : splitAtFirst q cs with
  | none => cs
  | some (b1, r1) =>
    match h2 : splitAtFirst q r1 with
    | none => cs
    | some (b2, r2) =>
      if nl ∈ b2 then b1 ++ q :: subQuote q r1
      else b1 ++ (YELLOW ++ (q :: b2 ++ q :: (RESET ++ subQuote q r2)))
termination_by cs.length
decreasing_by
  · exact splitAtFirst_length h1
  · have e1 := splitAtFirst_length h1
    have e2 := splitAtFirst_length h2
    omega

/-- Attempt of the keyword pattern at the current position: the leading
word boundary, then the first alternation branch whose literal matches and
whose trailing word boundary holds. -/
def tryKw (prev : Option Char) (cs : List Char) : Option (List Char × List Char) :=
  if boundaryB prev then
    KEYWORDS.findSome? fun kw =>
      if kw ≠ [] ∧ isPre kw cs ∧ boundaryA (cs.drop kw.length) then
        some (kw, cs.drop kw.length)
      else none
  else none

theorem isPre_eq_append : ∀ {p cs : List Char}, isPre p cs = true → cs = p ++ cs.drop p.length := by
  intro p
  induction p with
  | nil => intro cs _; rfl
  | cons a as ih =>
    intro cs h
    rcases cs with _ | ⟨b, bs⟩
    · simp [isPre] at h
    · rw [isPre, Bool.and_eq_true] at h
      have hab : a = b := by simpa using h.1
      subst hab
      simp only [List.length_cons, List.drop_succ_cons, List.cons_append]
      exact congrArg (a :: ·) (ih h.2)

theorem findSome?_some {α β : Type} {f : α → Option β} :
    ∀ {l : List α} {b : β}, l.findSome? f = some b → ∃ a ∈ l, f a = some b := by
  intro l
  induction l with
  | nil => intro b h; simp [List.findSome?] at h
  | cons a t ih =>
    intro b h
    rcases hfa : f a with _ | b'
    · have h' : List.findSome? f t = some b := by
        rw [List.findSome?, hfa] at h
        exact h
      obtain ⟨x, hx, hfx⟩ := ih h'
      exact ⟨x, List.mem_cons_of_mem a hx, hfx⟩
    · have h' : some b' = some b := by
        rw [List.findSome?, hfa] at h
        exact h
      exact ⟨a, List.mem_cons_self a t, by rw [hfa, Option.some.inj h']⟩

theorem tryKw_some {prev : Option Char} {cs kw rest : List Char}
    (h : tryKw prev cs = some (kw, rest)) :
    kw ∈ KEYWORDS ∧ kw ≠ [] ∧ cs = kw ++ rest ∧ rest = cs.drop kw.length := by
  rw [tryKw] at h
  by_cases hb : boundaryB prev
  · rw [if_pos hb] at h
    obtain ⟨a, ha, hfa⟩ := findSome?_some h
    by_cases hcond : a ≠ [] ∧ isPre a cs = true ∧ boundaryA (cs.drop a.length) = true
    · rw [if_pos (by simpa using hcond)] at hfa
      obtain ⟨h1, h2⟩ := Prod.mk.injEq .. ▸ Option.some.inj hfa
      subst h1
      refine ⟨ha, hcond.1, ?_, h2.symm⟩
      rw [← h2]
      exact isPre_eq_append hcond.2.1
    · rw [if_neg (by simpa using hcond)] at hfa
      exact absurd hfa (by simp)
  · rw [if_neg hb] at h
    exact absurd h (by simp)

theorem tryKw_length {prev : Option Char} {c : Char} {r kw rest : List Char}
    (h : tryKw prev (c :: r) = some (kw, rest)) : rest.length < (c :: r).length := by
  obtain ⟨_, hne, hdec, _⟩ := tryKw_some h
  have := congrArg List.length hdec
  rcases kw with _ | ⟨k, ks⟩
  · exact absurd rfl hne
  · simp at this
    simp
    omega

/-- One pass of `re.sub(KW_PATTERN, blue + match + reset, text)` (source
line 276): at each position try the keyword alternation; on a match wrap it
and resume after it (the boundary context stays the input text, so the
previous character is the keyword's last character), else advance one
character. -/
def subKeywords (prev : Option Char) (cs : List Char) : List Char :=
  match cs with
  | [] => []
  | c :: r =>
    match h : tryKw prev (c :: r) with
    | some (kw, rest) => BLUE ++ (kw ++ (RESET ++ subKeywords kw.getLast? rest))
    | none => c :: subKeywords (some c) r
termination_by cs.length
decreasing_by
  · exact tryKw_length h
  · simp

/-- One pass of `re.sub(r'\b(\d+)\b', cyan + match + reset, text)` (source
line 279): a maximal digit run whose ends both sit on word boundaries is
wrapped; a run followed by a word character can never match (every shorter
prefix of it ends before a digit), so the scan advances one character. -/
def subNumbers (prev : Option Char) (cs : List Char) : List Char :=
  match cs with
  | [] => []
  | c :: r =>
    if h : boundaryB prev ∧ c.isDigit ∧ boundaryA ((c :: r).dropWhile Char.isDigit) then
      CYAN ++ ((c :: r).takeWhile Char.isDigit
        ++ (RESET ++ subNumbers ((c :: r).takeWhile Char.isDigit).getLast?
              ((c :: r).dropWhile Char.isDigit)))
    else c :: subNumbers (some c) r
termination_by cs.length
decreasing_by
  · have hdw : (c :: r).dropWhile Char.isDigit = r.dropWhile Char.isDigit := by
      rw [List.dropWhile_cons, if_pos h.2.1]
    rw [hdw]
    have := (List.dropWhile_sublist (l := r) (p := Char.isDigit)).length_le
    simp
    omega
  · simp

/-- `highlight_code_text` (source lines 266-281): double-quote strings,
then single-quote strings, then keywords, then numbers, each pass running
on the previous pass's output. -/
def highlight_code_text (text : List Char) : List Char :=
  subNumbers none (subKeywords none (subQuote squote (subQuote dquote text)))

/-- `highlight_code_line` (source lines 255-264): if the line carries a
hash, split at the first one, highlight only the code part and wrap the
rest verbatim in the comment color. -/
def highlight_code_line (line : List Char) : List Char :=
  match splitAtFirst hashC line with
  | some (codePart, commentPart) =>
    highlight_code_text codePart ++ (GRAY ++ hashC :: (commentPart ++ RESET))
  | none => highlight_code_text line

/-- After an escape character: consume `[`, one or more digits and `m`;
`none` when the text does not continue that way. -/
def chompEsc : List Char → Option (List Char)
  | c :: r =>
    if c = '[' ∧ r.takeWhile Char.isDigit ≠ []
        ∧ (r.dropWhile Char.isDigit).head? = some 'm' then
      some (r.dropWhile Char.isDigit).tail
    else none
  | [] => none

theorem chompEsc_length : ∀ {r r3 : List Char}, chompEsc r = some r3 → r3.length < r.length := by
  intro r r3 h
  rcases r with _ | ⟨c, r'⟩
  · simp [chompEsc] at h
  · rw [chompEsc] at h
    by_cases hc : c = '[' ∧ r'.takeWhile Char.isDigit ≠ []
        ∧ (r'.dropWhile Char.isDigit).head? = some 'm'
    · rw [if_pos hc] at h
      have hr3 : (r'.dropWhile Char.isDigit).tail = r3 := by simpa using h
      have hlen : (r'.takeWhile Char.isDigit).length + (r'.dropWhile Char.isDigit).length
          = r'.length := by
        have h0 := congrArg List.length (List.takeWhile_append_dropWhile
          (p := Char.isDigit) (l := r'))
        simp only [List.length_append] at h0
        exact h0
      have htw : 1 ≤ (r'.takeWhile Char.isDigit).length := by
        rcases hx : r'.takeWhile Char.isDigit with _ | ⟨y, ys⟩
        · exact absurd hx hc.2.1
        · simp
      have hdwne : (r'.dropWhile Char.isDigit) ≠ [] := by
        intro hx
        rw [hx] at hc
        simp at hc
      have htl : (r'.dropWhile Char.isDigit).tail.length
          = (r'.dropWhile Char.isDigit).length - 1 := List.length_tail _
      rw [← hr3]
      have hd1 : 1 ≤ (r'.dropWhile Char.isDigit).length := by
        rcases hx : r'.dropWhile Char.isDigit with _ | ⟨y, ys⟩
        · exact absurd hx hdwne
        · simp
      simp only [List.length_cons]
      omega
    · rw [if_neg hc] at h
      simp at h

/-- Deletion of every ANSI color sequence `ESC [ digits m` from a text,
scanning left to right; an escape character not followed by a complete
sequence is kept. -/
def stripAnsi : List Char → List Char
  | [] => []
  | c :: r =>
    if c = escC then
      match h : chompEsc r with
      | some r3 => stripAnsi r3
      | none => c :: stripAnsi r
    else c :: stripAnsi r
termination_by cs => cs.length
decreasing_by
  · have := chompEsc_length h
    simp
    omega
  · simp
  · simp

/-- The five color codes the highlighter can insert. -/
def HLCodes : List (List Char) := [RESET, GRAY, YELLOW, BLUE, CYAN]

/-- A decorated text: an interleaving of ordinary non-escape characters and
complete inserted color codes.  Every intermediate result of the highlighter
on an escape-free line has this shape. -/
inductive Deco : List Char → Prop
  | nil : Deco []
  | chr {t : List Char} (c : Char) (hc : c ≠ escC) (h : Deco t) : Deco (c :: t)
  | code {t : List Char} (s : List Char) (hs : s ∈ HLCodes) (h : Deco t) : Deco (s ++ t)

theorem deco_append : ∀ {a b : List Char}, Deco a → Deco b → Deco (a ++ b) := by
  intro a b ha hb
  induction ha with
  | nil => exact hb
  | chr c hc _ ih => exact Deco.chr c hc ih
  | code s hs _ ih =>
    rw [List.append_assoc]
    exact Deco.code s hs ih

theorem deco_of_not_mem : ∀ {a : List Char}, escC ∉ a → Deco a := by
  intro a
  induction a with
  | nil => intro _; exact Deco.nil
  | cons c t ih =>
    intro h
    exact Deco.chr c (fun hq => h (hq ▸ List.mem_cons_self c t))
      (ih (fun hx => h (List.mem_cons_of_mem c hx)))

theorem stripAnsi_nil : stripAnsi [] = [] := by
  rw [stripAnsi]

theorem stripAnsi_cons_ne {c : Char} (t : List Char) (hc : c ≠ escC) :
    stripAnsi (c :: t) = c :: stripAnsi t := by
  rw [stripAnsi, if_neg hc]

theorem stripAnsi_esc_some {t r3 : List Char} (h : chompEsc t = some r3) :
    stripAnsi (escC :: t) = stripAnsi r3 := by
  rw [stripAnsi, if_pos rfl, h]

theorem chompEsc_digits (ds : List Char) (t : List Char) (hne : ds ≠ [])
    (hds : ∀ c ∈ ds, Char.isDigit c = true) :
    chompEsc ('[' :: (ds ++ 'm' :: t)) = some t := by
  have hsplit : (ds ++ 'm' :: t).takeWhile Char.isDigit = ds
      ∧ (ds ++ 'm' :: t).dropWhile Char.isDigit = 'm' :: t := by
    clear hne
    induction ds with
    | nil =>
      constructor
      · rw [List.nil_append, List.takeWhile_cons]
        simp
      · rw [List.nil_append, List.dropWhile_cons]
        simp
    | cons d ds' ih =>
      have hd : Char.isDigit d = true := hds d (List.mem_cons_self d ds')
      have hds' : ∀ c ∈ ds', Char.isDigit c = true :=
        fun c hc => hds c (List.mem_cons_of_mem d hc)
      constructor
      · rw [List.cons_append, List.takeWhile_cons, hd]
        simp [(ih hds').1]
      · rw [List.cons_append, List.dropWhile_cons, hd]
        simp [(ih hds').2]
  rw [chompEsc, if_pos ⟨rfl, by rw [hsplit.1]; exact hne, by rw [hsplit.2]; rfl⟩,
    hsplit.2]
  rfl

theorem stripAnsi_code {s : List Char} (hs : s ∈ HLCodes) (t : List Char) :
    stripAnsi (s ++ t) = stripAnsi t := by
  simp [HLCodes] at hs
  rcases hs with h | h | h | h | h <;> rw [h]
  · exact stripAnsi_esc_some (show chompEsc ('[' :: '0' :: 'm' :: t) = some t from
      chompEsc_digits ['0'] t (by simp) (by decide))
  · exact stripAnsi_esc_some (show chompEsc ('[' :: '9' :: '0' :: 'm' :: t) = some t from
      chompEsc_digits ['9', '0'] t (by simp) (by decide))
  · exact stripAnsi_esc_some (show chompEsc ('[' :: '3' :: '3' :: 'm' :: t) = some t from
      chompEsc_digits ['3', '3'] t (by simp) (by decide))
  · exact stripAnsi_esc_some (show chompEsc ('[' :: '3' :: '4' :: 'm' :: t) = some t from
      chompEsc_digits ['3', '4'] t (by simp) (by decide))
  · exact stripAnsi_esc_some (show chompEsc ('[' :: '3' :: '6' :: 'm' :: t) = some t from
      chompEsc_digits ['3', '6'] t (by simp) (by decide))

theorem stripAnsi_deco_append {a : List Char} (ha : Deco a) :
    ∀ b : List Char, stripAnsi (a ++ b) = stripAnsi a ++ stripAnsi b := by
  induction ha with
  | nil => intro b; rw [stripAnsi_nil, List.nil_append, List.nil_append]
  | chr c hc _ ih =>
    intro b
    rw [List.cons_append, stripAnsi_cons_ne _ hc, stripAnsi_cons_ne _ hc, ih b,
      List.cons_append]
  | code s hs _ ih =>
    intro b
    rw [List.append_assoc, stripAnsi_code hs, stripAnsi_code hs, ih b]

theorem stripAnsi_of_not_mem : ∀ {a : List Char}, escC ∉ a → stripAnsi a = a := by
  intro a
  induction a with
  | nil => intro _; exact stripAnsi_nil
  | cons c t ih =>
    intro h
    rw [stripAnsi_cons_ne t (fun hq => h (hq ▸ List.mem_cons_self c t)),
      ih (fun hx => h (List.mem_cons_of_mem c hx))]

theorem splitAtFirst_append_not_mem {q : Char} {a : List Char} (x : List Char)
    (hqa : q ∉ a) :
    splitAtFirst q (a ++ x) = (splitAtFirst q x).map (fun p => (a ++ p.1, p.2)) := by
  induction a with
  | nil =>
    rcases h : splitAtFirst q x with _ | ⟨b, r⟩ <;> simp [h]
  | cons c a' ih =>
    have hc : c ≠ q := fun hq => hqa (hq ▸ List.mem_cons_self c a')
    have ha' : q ∉ a' := fun hx => hqa (List.mem_cons_of_mem c hx)
    rw [List.cons_append, splitAtFirst, if_neg hc, ih ha']
    rcases h : splitAtFirst q x with _ | ⟨b, r⟩ <;> simp

theorem splitAtFirst_deco {q : Char} (hq : q ≠ escC) (hqc : ∀ s ∈ HLCodes, q ∉ s) :
    ∀ {t b r : List Char}, Deco t → splitAtFirst q t = some (b, r) → Deco b ∧ Deco r := by
  intro t b r ht h
  induction ht generalizing b r with
  | nil => simp [splitAtFirst] at h
  | chr c hc hdt ih =>
    by_cases hcq : c = q
    · rw [splitAtFirst, if_pos hcq] at h
      obtain ⟨h1', h2'⟩ := Prod.mk.injEq .. ▸ Option.some.inj h
      rw [← h1', ← h2']
      exact ⟨Deco.nil, hdt⟩
    · rw [splitAtFirst, if_neg hcq] at h
      rw [Option.map_eq_some'] at h
      obtain ⟨p, hp, hpe⟩ := h
      obtain ⟨h1', h2'⟩ := Prod.mk.injEq .. ▸ hpe
      rw [← h1', ← h2']
      exact ⟨Deco.chr c hc (ih hp).1, (ih hp).2⟩
  | code s hs hdt ih =>
    rw [splitAtFirst_append_not_mem _ (hqc s hs)] at h
    rw [Option.map_eq_some'] at h
    obtain ⟨p, hp, hpe⟩ := h
    obtain ⟨h1', h2'⟩ := Prod.mk.injEq .. ▸ hpe
    rw [← h1', ← h2']
    exact ⟨Deco.code s hs (ih hp).1, (ih hp).2⟩

theorem subQuote_eq_none {q : Char} {cs : List Char} (h1 : splitAtFirst q cs = none) :
    subQuote q cs = cs := by
  rw [subQuote, h1]

theorem subQuote_eq_one {q : Char} {cs b1 r1 : List Char}
    (h1 : splitAtFirst q cs = some (b1, r1)) (h2 : splitAtFirst q r1 = none) :
    subQuote q cs = cs := by
  rw [subQuote, h1]
  simp only []
  split
  · rfl
  · next b2 r2 heq =>
    rw [h2] at heq
    exact absurd heq (by simp)

theorem subQuote_eq_dead {q : Char} {cs b1 r1 b2 r2 : List Char}
    (h1 : splitAtFirst q cs = some (b1, r1))
    (h2 : splitAtFirst q r1 = some (b2, r2)) (hnl : nl ∈ b2) :
    subQuote q cs = b1 ++ q :: subQuote q r1 := by
  rw [subQuote, h1]
  simp only []
  split
  · next heq =>
    rw [h2] at heq
    exact absurd heq (by simp)
  · next b2' r2' heq =>
    rw [h2] at heq
    obtain ⟨e1, e2⟩ := Prod.mk.injEq .. ▸ Option.some.inj heq
    rw [if_pos (e1 ▸ hnl)]

theorem subQuote_eq_match {q : Char} {cs b1 r1 b2 r2 : List Char}
    (h1 : splitAtFirst q cs = some (b1, r1))
    (h2 : splitAtFirst q r1 = some (b2, r2)) (hnl : nl ∉ b2) :
    subQuote q cs = b1 ++ (YELLOW ++ (q :: b2 ++ q :: (RESET ++ subQuote q r2))) := by
  rw [subQuote, h1]
  simp only []
  split
  · next heq =>
    rw [h2] at heq
    exact absurd heq (by simp)
  · next b2' r2' heq =>
    rw [h2] at heq
    obtain ⟨e1, e2⟩ := Prod.mk.injEq .. ▸ Option.some.inj heq
    rw [if_neg (e1 ▸ hnl), ← e1, ← e2]

theorem subQuote_deco (q : Char) (hq : q ≠ escC) (hqc : ∀ s ∈ HLCodes, q ∉ s) :
    ∀ (n : Nat) (t : List Char), t.length ≤ n → Deco t →
      Deco (subQuote q t) ∧ stripAnsi (subQuote q t) = stripAnsi t := by
  intro n
  induction n with
  | zero =>
    intro t hlen ht
    have ht0 : t = [] := List.eq_nil_of_length_eq_zero (Nat.le_zero.mp hlen)
    subst ht0
    rw [subQuote_eq_none (show splitAtFirst q [] = none from rfl)]
    exact ⟨Deco.nil, rfl⟩
  | succ n ih =>
    intro t hlen ht
    rcases h1 : splitAtFirst q t with _ | ⟨b1, r1⟩
    · rw [subQuote_eq_none h1]
      exact ⟨ht, rfl⟩
    · rcases h2 : splitAtFirst q r1 with _ | ⟨b2, r2⟩
      · rw [subQuote_eq_one h1 h2]
        exact ⟨ht, rfl⟩
      · obtain ⟨hb1, hr1⟩ := splitAtFirst_deco hq hqc ht h1
        obtain ⟨hb2, hr2⟩ := splitAtFirst_deco hq hqc hr1 h2
        have hl1 : r1.length < t.length := splitAtFirst_length h1
        have hl2 : r2.length < r1.length := splitAtFirst_length h2
        have ih1 := ih r1 (by omega) hr1
        have ih2 := ih r2 (by omega) hr2
        have ht_eq : t = b1 ++ q :: r1 := splitAtFirst_eq h1
        have hr1_eq : r1 = b2 ++ q :: r2 := splitAtFirst_eq h2
        by_cases hnl : nl ∈ b2
        · have hval : subQuote q t = b1 ++ q :: subQuote q r1 :=
            subQuote_eq_dead h1 h2 hnl
          constructor
          · rw [hval]
            exact deco_append hb1 (Deco.chr q hq ih1.1)
          · rw [hval, stripAnsi_deco_append hb1, stripAnsi_cons_ne _ hq, ih1.2]
            conv_rhs => rw [ht_eq, stripAnsi_deco_append hb1, stripAnsi_cons_ne _ hq]
        · have hval : subQuote q t
              = b1 ++ (YELLOW ++ (q :: b2 ++ q :: (RESET ++ subQuote q r2))) :=
            subQuote_eq_match h1 h2 hnl
          have hydeco : Deco (YELLOW ++ (q :: b2 ++ q :: (RESET ++ subQuote q r2))) := by
            apply Deco.code YELLOW (by simp [HLCodes])
            exact Deco.chr q hq (deco_append hb2 (Deco.chr q hq
              (Deco.code RESET (by simp [HLCodes]) ih2.1)))
          constructor
          · rw [hval]
            exact deco_append hb1 hydeco
          · rw [hval, stripAnsi_deco_append hb1,
              stripAnsi_code (show YELLOW ∈ HLCodes by simp [HLCodes]),
              stripAnsi_deco_append (Deco.chr q hq hb2),
              stripAnsi_cons_ne b2 hq, stripAnsi_cons_ne (RESET ++ subQuote q r2) hq,
              stripAnsi_code (show RESET ∈ HLCodes by simp [HLCodes]), ih2.2]
            conv_rhs => rw [ht_eq, stripAnsi_deco_append hb1, stripAnsi_cons_ne r1 hq,
              hr1_eq, stripAnsi_deco_append hb2, stripAnsi_cons_ne r2 hq]
            simp

theorem findSome?_none {α β : Type} {f : α → Option β} :
    ∀ {l : List α}, (∀ a ∈ l, f a = none) → l.findSome? f = none := by
  intro l
  induction l with
  | nil => intro _; rfl
  | cons a t ih =>
    intro h
    rw [List.findSome?, h a (List.mem_cons_self a t),
      ih (fun x hx => h x (List.mem_cons_of_mem a hx))]

theorem tryKw_none_of_head {c : Char} (hheads : ∀ kw ∈ KEYWORDS, kw.head? ≠ some c)
    (prev : Option Char) (r : List Char) : tryKw prev (c :: r) = none := by
  rw [tryKw]
  by_cases hb : boundaryB prev
  · rw [if_pos hb]
    apply findSome?_none
    intro kw hkw
    rcases hkne : kw with _ | ⟨k, ks⟩
    · simp
    · have hk : k ≠ c := by
        have := hheads kw hkw
        rw [hkne] at this
        simpa using this
      rw [if_neg]
      intro hcond
      have := hcond.2.1
      rw [isPre] at this
      simp at this
      exact hk this.1
  · rw [if_neg hb]

theorem codes_cons {s : List Char} (hs : s ∈ HLCodes) : ∃ s', s = escC :: s' := by
  simp [HLCodes] at hs
  rcases hs with h | h | h | h | h <;> subst h
  · exact ⟨_, rfl⟩
  · exact ⟨_, rfl⟩
  · exact ⟨_, rfl⟩
  · exact ⟨_, rfl⟩
  · exact ⟨_, rfl⟩

theorem deco_cons_inv : ∀ {u : List Char}, Deco u → ∀ {x : Char} {y : List Char},
    u = x :: y → x ≠ escC → Deco y := by
  intro u hd
  induction hd with
  | nil => intro x y h _; simp at h
  | chr c hc h' _ =>
    intro x y heq _
    injection heq with e1 e2
    exact e2 ▸ h'
  | code s hs h' ih =>
    intro x y heq hx
    obtain ⟨s', hs'⟩ := codes_cons hs
    rw [hs'] at heq
    injection heq with e1 e2
    exact absurd e1.symm hx

theorem deco_append_right : ∀ {a b : List Char}, escC ∉ a → Deco (a ++ b) → Deco b := by
  intro a
  induction a with
  | nil => exact fun _ h => h
  | cons x a' ih =>
    intro b hx hd
    have hxe : x ≠ escC := fun hq => hx (hq ▸ List.mem_cons_self x a')
    exact ih (fun hm => hx (List.mem_cons_of_mem x hm))
      (deco_cons_inv hd rfl hxe)

theorem subKeywords_nil (prev : Option Char) : subKeywords prev [] = [] := by
  rw [subKeywords]

theorem subKeywords_step {prev : Option Char} {c : Char} {r : List Char}
    (h : tryKw prev (c :: r) = none) :
    subKeywords prev (c :: r) = c :: subKeywords (some c) r := by
  rw [subKeywords]
  split
  · next kw rest heq =>
    rw [h] at heq
    exact absurd heq (by simp)
  · rfl

theorem subKeywords_kw {prev : Option Char} {c : Char} {r kw rest : List Char}
    (h : tryKw prev (c :: r) = some (kw, rest)) :
    subKeywords prev (c :: r) = BLUE ++ (kw ++ (RESET ++ subKeywords kw.getLast? rest)) := by
  rw [subKeywords]
  split
  · next kw' rest' heq =>
    rw [h] at heq
    obtain ⟨e1, e2⟩ := Prod.mk.injEq .. ▸ Option.some.inj heq
    rw [← e1, ← e2]
  · next heq =>
    rw [h] at heq
    exact absurd heq (by simp)

theorem subKeywords_code {s : List Char} (hs : s ∈ HLCodes) (prev : Option Char)
    (t : List Char) :
    subKeywords prev (s ++ t) = s ++ subKeywords (some 'm') t := by
  simp [HLCodes] at hs
  rcases hs with h | h | h | h | h <;> subst h
  · show subKeywords prev (escC :: '[' :: '0' :: 'm' :: t) = _
    rw [subKeywords_step (tryKw_none_of_head (by decide) _ _),
      subKeywords_step (tryKw_none_of_head (by decide) _ _),
      subKeywords_step (tryKw_none_of_head (by decide) _ _),
      subKeywords_step (tryKw_none_of_head (by decide) _ _)]
    rfl
  · show subKeywords prev (escC :: '[' :: '9' :: '0' :: 'm' :: t) = _
    rw [subKeywords_step (tryKw_none_of_head (by decide) _ _),
      subKeywords_step (tryKw_none_of_head (by decide) _ _),
      subKeywords_step (tryKw_none_of_head (by decide) _ _),
      subKeywords_step (tryKw_none_of_head (by decide) _ _),
      subKeywords_step (tryKw_none_of_head (by decide) _ _)]
    rfl
  · show subKeywords prev (escC :: '[' :: '3' :: '3' :: 'm' :: t) = _
    rw [subKeywords_step (tryKw_none_of_head (by decide) _ _),
      subKeywords_step (tryKw_none_of_head (by decide) _ _),
      subKeywords_step (tryKw_none_of_head (by decide) _ _),
      subKeywords_step (tryKw_none_of_head (by decide) _ _),
      subKeywords_step (tryKw_none_of_head (by decide) _ _)]
    rfl
  · show subKeywords prev (escC :: '[' :: '3' :: '4' :: 'm' :: t) = _
    rw [subKeywords_step (tryKw_none_of_head (by decide) _ _),
      subKeywords_step (tryKw_none_of_head (by decide) _ _),
      subKeywords_step (tryKw_none_of_head (by decide) _ _),
      subKeywords_step (tryKw_none_of_head (by decide) _ _),
      subKeywords_step (tryKw_none_of_head (by decide) _ _)]
    rfl
  · show subKeywords prev (escC :: '[' :: '3' :: '6' :: 'm' :: t) = _
    rw [subKeywords_step (tryKw_none_of_head (by decide) _ _),
      subKeywords_step (tryKw_none_of_head (by decide) _ _),
      subKeywords_step (tryKw_none_of_head (by decide) _ _),
      subKeywords_step (tryKw_none_of_head (by decide) _ _),
      subKeywords_step (tryKw_none_of_head (by decide) _ _)]
    rfl

theorem subKeywords_deco : ∀ (n : Nat) (prev : Option Char) (t : List Char),
    t.length ≤ n → Deco t →
    Deco (subKeywords prev t) ∧ stripAnsi (subKeywords prev t) = stripAnsi t := by
  intro n
  induction n with
  | zero =>
    intro prev t hlen ht
    have ht0 : t = [] := List.eq_nil_of_length_eq_zero (Nat.le_zero.mp hlen)
    subst ht0
    rw [subKeywords_nil]
    exact ⟨Deco.nil, rfl⟩
  | succ n ih =>
    intro prev t hlen ht
    cases ht with
    | nil =>
      rw [subKeywords_nil]
      exact ⟨Deco.nil, rfl⟩
    | @chr t' c hc hdt =>
      rcases htk : tryKw prev (c :: t') with _ | ⟨kw, rest⟩
      · rw [subKeywords_step htk]
        have hlt : t'.length ≤ n := by
          simp at hlen
          omega
        have ihr := ih (some c) t' hlt hdt
        exact ⟨Deco.chr c hc ihr.1,
          by rw [stripAnsi_cons_ne _ hc, stripAnsi_cons_ne _ hc, ihr.2]⟩
      · obtain ⟨hkmem, hkne, hdec_eq, hrest⟩ := tryKw_some htk
        have hkesc : escC ∉ kw := by
          have hall : ∀ k ∈ KEYWORDS, escC ∉ k := by decide
          exact hall kw hkmem
        have hdrest : Deco rest :=
          deco_append_right hkesc (hdec_eq ▸ Deco.chr c hc hdt)
        have hrlen : rest.length ≤ n := by
          have := congrArg List.length hdec_eq
          rcases kw with _ | ⟨k, ks⟩
          · exact absurd rfl hkne
          · simp at this hlen
            omega
        have ihr := ih kw.getLast? rest hrlen hdrest
        rw [subKeywords_kw htk]
        have hBLUE : BLUE ∈ HLCodes := by simp [HLCodes]
        have hRESET : RESET ∈ HLCodes := by simp [HLCodes]
        constructor
        · exact Deco.code BLUE hBLUE (deco_append (deco_of_not_mem hkesc)
            (Deco.code RESET hRESET ihr.1))
        · rw [stripAnsi_code hBLUE, stripAnsi_deco_append (deco_of_not_mem hkesc),
            stripAnsi_of_not_mem hkesc, stripAnsi_code hRESET, ihr.2]
          conv_rhs => rw [hdec_eq, stripAnsi_deco_append (deco_of_not_mem hkesc),
            stripAnsi_of_not_mem hkesc]
    | @code t' s hs hdt =>
      rw [subKeywords_code hs prev t']
      have hslen : 1 ≤ s.length := by
        obtain ⟨s', hs'⟩ := codes_cons hs
        rw [hs']
        simp
      have hlt : t'.length ≤ n := by
        rw [List.length_append] at hlen
        omega
      have ihr := ih (some 'm') t' hlt hdt
      exact ⟨Deco.code s hs ihr.1,
        by rw [stripAnsi_code hs, stripAnsi_code hs, ihr.2]⟩

theorem subNumbers_nil (prev : Option Char) : subNumbers prev [] = [] := by
  rw [subNumbers]

theorem subNumbers_step {prev : Option Char} {c : Char} {r : List Char}
    (h : ¬(boundaryB prev ∧ c.isDigit ∧ boundaryA ((c :: r).dropWhile Char.isDigit))) :
    subNumbers prev (c :: r) = c :: subNumbers (some c) r := by
  rw [subNumbers, dif_neg h]

theorem subNumbers_match {prev : Option Char} {c : Char} {r : List Char}
    (h : boundaryB prev ∧ c.isDigit ∧ boundaryA ((c :: r).dropWhile Char.isDigit)) :
    subNumbers prev (c :: r)
      = CYAN ++ ((c :: r).takeWhile Char.isDigit
          ++ (RESET ++ subNumbers ((c :: r).takeWhile Char.isDigit).getLast?
                ((c :: r).dropWhile Char.isDigit))) := by
  rw [subNumbers, dif_pos h]

theorem subNumbers_code {s : List Char} (hs : s ∈ HLCodes) (prev : Option Char)
    (t : List Char) :
    subNumbers prev (s ++ t) = s ++ subNumbers (some 'm') t := by
  have hesc : ∀ (p : Option Char) (r : List Char),
      subNumbers p (escC :: r) = escC :: subNumbers (some escC) r :=
    fun p r => subNumbers_step (fun hx => absurd hx.2.1 (by decide))
  have hbr : ∀ (p : Option Char) (r : List Char),
      subNumbers p ('[' :: r) = '[' :: subNumbers (some '[') r :=
    fun p r => subNumbers_step (fun hx => absurd hx.2.1 (by decide))
  have hm : ∀ (p : Option Char) (r : List Char),
      subNumbers p ('m' :: r) = 'm' :: subNumbers (some 'm') r :=
    fun p r => subNumbers_step (fun hx => absurd hx.2.1 (by decide))
  have hdd : ∀ (d d' : Char), Char.isDigit d = true → ∀ r : List Char,
      subNumbers (some d) (d' :: r) = d' :: subNumbers (some d') r := by
    intro d d' hd r
    apply subNumbers_step
    intro hx
    have hw : isWordChar d = true := by
      simp [isWordChar, Char.isAlphanum, hd]
    have hbb : boundaryB (some d) = false := by
      show (!(isWordChar d)) = false
      rw [hw]
      rfl
    exact absurd hx.1 (by simp [hbb])
  have hda : ∀ (p : Option Char) (d : Char) (r : List Char),
      boundaryA ((d :: r).dropWhile Char.isDigit) = false →
      subNumbers p (d :: r) = d :: subNumbers (some d) r :=
    fun p d r hba => subNumbers_step (fun hx => absurd hx.2.2 (by simp [hba]))
  simp [HLCodes] at hs
  rcases hs with h | h | h | h | h <;> subst h
  · show subNumbers prev (escC :: '[' :: '0' :: 'm' :: t) = _
    rw [hesc, hbr]
    rw [hda (some '[') '0' ('m' :: t) (by
      rw [List.dropWhile_cons, if_pos (by decide), List.dropWhile_cons,
        if_neg (by decide)]
      rfl)]
    rw [hm]
    rfl
  · show subNumbers prev (escC :: '[' :: '9' :: '0' :: 'm' :: t) = _
    rw [hesc, hbr]
    rw [hda (some '[') '9' ('0' :: 'm' :: t) (by
      rw [List.dropWhile_cons, if_pos (by decide), List.dropWhile_cons,
        if_pos (by decide), List.dropWhile_cons, if_neg (by decide)]
      rfl)]
    rw [hdd '9' '0' (by decide), hm]
    rfl
  · show subNumbers prev (escC :: '[' :: '3' :: '3' :: 'm' :: t) = _
    rw [hesc, hbr]
    rw [hda (some '[') '3' ('3' :: 'm' :: t) (by
      rw [List.dropWhile_cons, if_pos (by decide), List.dropWhile_cons,
        if_pos (by decide), List.dropWhile_cons, if_neg (by decide)]
      rfl)]
    rw [hdd '3' '3' (by decide), hm]
    rfl
  · show subNumbers prev (escC :: '[' :: '3' :: '4' :: 'm' :: t) = _
    rw [hesc, hbr]
    rw [hda (some '[') '3' ('4' :: 'm' :: t) (by
      rw [List.dropWhile_cons, if_pos (by decide), List.dropWhile_cons,
        if_pos (by decide), List.dropWhile_cons, if_neg (by decide)]
      rfl)]
    rw [hdd '3' '4' (by decide), hm]
    rfl
  · show subNumbers prev (escC :: '[' :: '3' :: '6' :: 'm' :: t) = _
    rw [hesc, hbr]
    rw [hda (some '[') '3' ('6' :: 'm' :: t) (by
      rw [List.dropWhile_cons, if_pos (by decide), List.dropWhile_cons,
        if_pos (by decide), List.dropWhile_cons, if_neg (by decide)]
      rfl)]
    rw [hdd '3' '6' (by decide), hm]
    rfl

theorem deco_dropWhile_digit : ∀ {t : List Char}, Deco t →
    Deco (t.dropWhile Char.isDigit) := by
  intro t ht
  induction ht with
  | nil => exact Deco.nil
  | chr c hc h' ih =>
    by_cases hd : Char.isDigit c
    · rw [List.dropWhile_cons, if_pos hd]
      exact ih
    · rw [List.dropWhile_cons, if_neg hd]
      exact Deco.chr c hc h'
  | @code t' s hs h' ih =>
    obtain ⟨s', hs'⟩ := codes_cons hs
    rw [hs', List.cons_append, List.dropWhile_cons,
      if_neg (by decide : ¬(Char.isDigit escC = true)), ← List.cons_append, ← hs']
    exact Deco.code s hs h'

theorem takeWhile_digit_not_esc (t : List Char) : escC ∉ t.takeWhile Char.isDigit := by
  intro hx
  have := List.mem_takeWhile_imp hx
  exact absurd this (by decide)

theorem subNumbers_deco : ∀ (n : Nat) (prev : Option Char) (t : List Char),
    t.length ≤ n → Deco t →
    Deco (subNumbers prev t) ∧ stripAnsi (subNumbers prev t) = stripAnsi t := by
  intro n
  induction n with
  | zero =>
    intro prev t hlen ht
    have ht0 : t = [] := List.eq_nil_of_length_eq_zero (Nat.le_zero.mp hlen)
    subst ht0
    rw [subNumbers_nil]
    exact ⟨Deco.nil, rfl⟩
  | succ n ih =>
    intro prev t hlen ht
    cases ht with
    | nil =>
      rw [subNumbers_nil]
      exact ⟨Deco.nil, rfl⟩
    | @chr t' c hc hdt =>
      by_cases hcond : boundaryB prev ∧ c.isDigit
          ∧ boundaryA ((c :: t').dropWhile Char.isDigit)
      · rw [subNumbers_match hcond]
        have hdig : Char.isDigit c = true := hcond.2.1
        have hdw : (c :: t').dropWhile Char.isDigit = t'.dropWhile Char.isDigit := by
          rw [List.dropWhile_cons, if_pos hdig]
        have hdeco_dw : Deco ((c :: t').dropWhile Char.isDigit) := by
          rw [hdw]
          exact deco_dropWhile_digit hdt
        have hlen_dw : ((c :: t').dropWhile Char.isDigit).length ≤ n := by
          rw [hdw]
          have := (List.dropWhile_sublist (l := t') (p := Char.isDigit)).length_le
          simp at hlen
          omega
        have hesc_tw : escC ∉ (c :: t').takeWhile Char.isDigit :=
          takeWhile_digit_not_esc _
        have ihr := ih ((c :: t').takeWhile Char.isDigit).getLast?
          ((c :: t').dropWhile Char.isDigit) hlen_dw hdeco_dw
        have hCYAN : CYAN ∈ HLCodes := by simp [HLCodes]
        have hRESET : RESET ∈ HLCodes := by simp [HLCodes]
        constructor
        · exact Deco.code CYAN hCYAN (deco_append (deco_of_not_mem hesc_tw)
            (Deco.code RESET hRESET ihr.1))
        · rw [stripAnsi_code hCYAN, stripAnsi_deco_append (deco_of_not_mem hesc_tw),
            stripAnsi_of_not_mem hesc_tw, stripAnsi_code hRESET, ihr.2]
          conv_rhs => rw [← List.takeWhile_append_dropWhile (p := Char.isDigit)
              (l := c :: t'),
            stripAnsi_deco_append (deco_of_not_mem hesc_tw),
            stripAnsi_of_not_mem hesc_tw]
      · rw [subNumbers_step hcond]
        have hlt : t'.length ≤ n := by
          simp at hlen
          omega
        have ihr := ih (some c) t' hlt hdt
        exact ⟨Deco.chr c hc ihr.1,
          by rw [stripAnsi_cons_ne _ hc, stripAnsi_cons_ne _ hc, ihr.2]⟩
    | @code t' s hs hdt =>
      rw [subNumbers_code hs prev t']
      have hslen : 1 ≤ s.length := by
        obtain ⟨s', hs'⟩ := codes_cons hs
        rw [hs']
        simp
      have hlt : t'.length ≤ n := by
        rw [List.length_append] at hlen
        omega
      have ihr := ih (some 'm') t' hlt hdt
      exact ⟨Deco.code s hs ihr.1,
        by rw [stripAnsi_code hs, stripAnsi_code hs, ihr.2]⟩

theorem stripAnsi_RESET : stripAnsi RESET = [] := by
  have h := stripAnsi_code (show RESET ∈ HLCodes by simp [HLCodes]) []
  rw [List.append_nil] at h
  rw [h, stripAnsi_nil]

theorem highlight_code_text_deco (t : List Char) (ht : Deco t) :
    Deco (highlight_code_text t) ∧ stripAnsi (highlight_code_text t) = stripAnsi t := by
  have hdq := subQuote_deco dquote (by decide) (by decide) t.length t le_rfl ht
  have hsq := subQuote_deco squote (by decide) (by decide)
    (subQuote dquote t).length _ le_rfl hdq.1
  have hkw := subKeywords_deco (subQuote squote (subQuote dquote t)).length none _
    le_rfl hsq.1
  have hnum := subNumbers_deco
    (subKeywords none (subQuote squote (subQuote dquote t))).length none _ le_rfl hkw.1
  constructor
  · exact hnum.1
  · show stripAnsi (subNumbers none (subKeywords none (subQuote squote
      (subQuote dquote t)))) = stripAnsi t
    rw [hnum.2, hkw.2, hsq.2, hdq.2]

/-- C5 (amended).  For every line that does not itself contain the escape
character 0x1B, highlighting and then deleting every ANSI color sequence
from the result yields exactly the original line: every pass of
`highlight_code_line` only inserts complete color sequences around spans of
the original text.  (For a line already containing escape sequences the
round trip fails, because stripping also deletes the pre-existing
sequences: see the counterexample.) -/
theorem C5_highlight_roundtrip (line : List Char) (h : escC ∉ line) :
    stripAnsi (highlight_code_line line) = line := by
  have hdecoline : Deco line := deco_of_not_mem h
  rcases hsp : splitAtFirst hashC line with _ | ⟨codePart, commentPart⟩
  · have hval : highlight_code_line line = highlight_code_text line := by
      rw [highlight_code_line, hsp]
    rw [hval, (highlight_code_text_deco line hdecoline).2, stripAnsi_of_not_mem h]
  · have hline_eq : line = codePart ++ hashC :: commentPart := splitAtFirst_eq hsp
    have hcode_esc : escC ∉ codePart := fun hx =>
      h (hline_eq ▸ List.mem_append_left _ hx)
    have hcomm_esc : escC ∉ commentPart := fun hx =>
      h (hline_eq ▸ List.mem_append_right _ (List.mem_cons_of_mem _ hx))
    have hdcode : Deco codePart := deco_of_not_mem hcode_esc
    have hval : highlight_code_line line
        = highlight_code_text codePart ++ (GRAY ++ hashC :: (commentPart ++ RESET)) := by
      rw [highlight_code_line, hsp]
    have hct := highlight_code_text_deco codePart hdcode
    rw [hval, stripAnsi_deco_append hct.1, hct.2, stripAnsi_of_not_mem hcode_esc,
      stripAnsi_code (show GRAY ∈ HLCodes by simp [HLCodes]),
      stripAnsi_cons_ne _ (show hashC ≠ escC by decide),
      stripAnsi_deco_append (deco_of_not_mem hcomm_esc),
      stripAnsi_of_not_mem hcomm_esc, stripAnsi_RESET, List.append_nil, ← hline_eq]

theorem C5_highlight_roundtrip_witness :
    escC ∉ "x = 12 # set".toList ∧
    stripAnsi (highlight_code_line "x = 12 # set".toList) = "x = 12 # set".toList :=
  ⟨by decide, C5_highlight_roundtrip _ (by decide)⟩

/-- C5 counterexample: a line that already consists of an ANSI color
sequence (the four characters of `RESET`) passes through the highlighter
unchanged — no pass matches inside it — but stripping then deletes the
pre-existing sequence, so the round trip does not return the original
line.  The unrestricted "for every input line" claim is therefore false. -/
theorem C5_counterexample :
    highlight_code_line RESET = RESET ∧
    stripAnsi (highlight_code_line RESET) = [] ∧
    stripAnsi (highlight_code_line RESET) ≠ RESET := by
  have hq1 : subQuote dquote RESET = RESET := subQuote_eq_none (by decide)
  have hq2 : subQuote squote RESET = RESET := subQuote_eq_none (by decide)
  have hk : subKeywords none RESET = RESET := by
    have h := subKeywords_code (show RESET ∈ HLCodes by simp [HLCodes]) none []
    rw [List.append_nil] at h
    rw [h, subKeywords_nil, List.append_nil]
  have hn : subNumbers none RESET = RESET := by
    have h := subNumbers_code (show RESET ∈ HLCodes by simp [HLCodes]) none []
    rw [List.append_nil] at h
    rw [h, subNumbers_nil, List.append_nil]
  have hline : highlight_code_line RESET = RESET := by
    show subNumbers none (subKeywords none (subQuote squote (subQuote dquote RESET)))
      = RESET
    rw [hq1, hq2, hk, hn]
  refine ⟨hline, by rw [hline, stripAnsi_RESET], ?_⟩
  rw [hline, stripAnsi_RESET]
  decide

end CyberLama
